import Mathlib

/-!
# vuepress-plugin-remote-url: URL generation for tracked files

A shallow embedding of `src/index.js`.  JavaScript strings are Lean `String`s (sequences of
Unicode scalar values; a lone surrogate, on which `encodeURI` would raise, is not representable),
`undefined`/`null` are `Option.none`, and a call that can raise returns `Except JsError _`.

The Node.js library functions the source calls (`path.join`, `url.format`, `encodeURI`,
`String.prototype.trim`) are embedded from their POSIX / legacy-parser behaviour; the points on
which the releases of the legacy parser differ are fields of `LegacyParser`, and the statements
hold for every value of them.  The external collaborators (child processes, `git-repo-info`,
`git-url-parse`) are fields of an environment record.
-/

namespace RemoteUrl

/-! ## JavaScript runtime -/

/-- Exceptions a call can raise. -/
inductive JsError
  | typeError
  | uriError
  | processError
  deriving DecidableEq, Repr

deriving instance DecidableEq for Except

/-- The backslash character. -/
def backslash : Char := Char.ofNat 92

/-- WhiteSpace and LineTerminator code points of ECMAScript: what `trim` strips and what the
regular-expression class `\s` matches. -/
def isJsWhiteSpace (c : Char) : Bool :=
  c.toNat == 9 || c.toNat == 10 || c.toNat == 11 || c.toNat == 12 || c.toNat == 13 ||
  c.toNat == 32 || c.toNat == 160 || c.toNat == 5760 ||
  (decide (8192 ≤ c.toNat) && decide (c.toNat ≤ 8202)) ||
  c.toNat == 8232 || c.toNat == 8233 || c.toNat == 8239 || c.toNat == 8287 ||
  c.toNat == 12288 || c.toNat == 65279

/-- Strip the characters satisfying `p` from both ends. -/
def trimBoth (p : Char → Bool) (cs : List Char) : List Char :=
  ((cs.dropWhile p).reverse.dropWhile p).reverse

/-- The method `String.prototype.trim`. -/
def jsTrim (s : String) : String := ⟨trimBoth isJsWhiteSpace s.data⟩

/-- Truthiness of a value that is `undefined` or a string: the empty string is falsy. -/
def truthy (v : Option String) : Bool :=
  match v with
  | none => false
  | some s => !(s == "")

/-- The regular-expression class `\w`. -/
def isWordChar (c : Char) : Bool :=
  (decide (48 ≤ c.toNat) && decide (c.toNat ≤ 57)) ||
  (decide (65 ≤ c.toNat) && decide (c.toNat ≤ 90)) ||
  (decide (97 ≤ c.toNat) && decide (c.toNat ≤ 122)) || c.toNat == 95

/-! ## `path.join` (POSIX) -/

namespace path

/-- Split at every `/`; the pieces may be empty. -/
def splitSlash (cs : List Char) : List (List Char) :=
  cs.foldr (fun c acc =>
    if c = '/' then [] :: acc
    else match acc with
      | [] => [[c]]
      | s :: r => (c :: s) :: r) [[]]

/-- Concatenate the pieces with a `/` between neighbours. -/
def joinSlash : List (List Char) → List Char
  | [] => []
  | [s] => s
  | s :: t :: rest => s ++ '/' :: joinSlash (t :: rest)

/-- One segment of `normalizeString`; `stack` holds the kept segments, last one first. -/
def normalizeStep (allowAboveRoot : Bool) (stack : List (List Char)) (seg : List Char) :
    List (List Char) :=
  if seg = [] ∨ seg = ['.'] then stack
  else if seg = ['.', '.'] then
    match stack with
    | top :: below =>
      if top = ['.', '.'] then (if allowAboveRoot then seg :: stack else stack) else below
    | [] => if allowAboveRoot then [seg] else []
  else seg :: stack

/-- The kept segments of a path, in order. -/
def normalizeSegments (allowAboveRoot : Bool) (cs : List Char) : List (List Char) :=
  ((splitSlash cs).foldl (normalizeStep allowAboveRoot) []).reverse

/-- The helper `normalizeString`: drop empty and `.` segments, resolve `..`. -/
def normalizeString (cs : List Char) (allowAboveRoot : Bool) : List Char :=
  joinSlash (normalizeSegments allowAboveRoot cs)

/-- The function `path.normalize`. -/
def normalizeChars (cs : List Char) : List Char :=
  if cs = [] then ['.']
  else
    let isAbsolute := cs.head? == some '/'
    let trailingSeparator := cs.getLast? == some '/'
    let res := normalizeString cs (!isAbsolute)
    if res = [] then
      if isAbsolute then ['/'] else if trailingSeparator then ['.', '/'] else ['.']
    else
      let res := if trailingSeparator then res ++ ['/'] else res
      if isAbsolute then '/' :: res else res

/-- The function `path.join`: the non-empty arguments joined by `/`, then normalized. -/
def join (args : List String) : String :=
  let parts := (args.map String.data).filter (fun a => !a.isEmpty)
  if parts = [] then "." else ⟨normalizeChars (joinSlash parts)⟩

end path

/-! ## `encodeURI` -/

/-- Characters `encodeURI` leaves alone: alphanumerics, `-_.!~*'()` and `;/?:@&=+$,#`. -/
def uriUnescaped (c : Char) : Bool :=
  (decide (48 ≤ c.toNat) && decide (c.toNat ≤ 57)) ||
  (decide (65 ≤ c.toNat) && decide (c.toNat ≤ 90)) ||
  (decide (97 ≤ c.toNat) && decide (c.toNat ≤ 122)) ||
  [45, 95, 46, 33, 126, 42, 39, 40, 41, 59, 47, 63, 58, 64, 38, 61, 43, 36, 44, 35].contains
    c.toNat

/-- The UTF-8 octets of a code point. -/
def utf8Bytes (c : Char) : List Nat :=
  let n := c.toNat
  if n < 128 then [n]
  else if n < 2048 then [192 + n / 64, 128 + n % 64]
  else if n < 65536 then [224 + n / 4096, 128 + n / 64 % 64, 128 + n % 64]
  else [240 + n / 262144, 128 + n / 4096 % 64, 128 + n / 64 % 64, 128 + n % 64]

/-- An upper-case hexadecimal digit. -/
def hexDigit (n : Nat) : Char :=
  match n with
  | 0 => '0' | 1 => '1' | 2 => '2' | 3 => '3' | 4 => '4' | 5 => '5' | 6 => '6' | 7 => '7'
  | 8 => '8' | 9 => '9' | 10 => 'A' | 11 => 'B' | 12 => 'C' | 13 => 'D' | 14 => 'E' | _ => 'F'

/-- The escape `%XX` of one octet. -/
def percentByte (b : Nat) : List Char := ['%', hexDigit (b / 16), hexDigit (b % 16)]

/-- What `encodeURI` writes for one character. -/
def encodeChar (c : Char) : List Char :=
  if uriUnescaped c then [c] else (utf8Bytes c).flatMap percentByte

/-- The global function `encodeURI`. -/
def encodeURI (s : String) : String := ⟨s.data.flatMap encodeChar⟩

/-! ## `url.format` applied to a string (legacy parser) -/

/-- The legacy URL parser behind `url.format`: the two points on which its releases differ, and
the branches this development leaves open. -/
structure LegacyParser where
  /-- Whether every code unit below 33 is trimmed (later releases) or only the seven whitespace
  characters of the earlier ones. -/
  trimsControls : Bool
  /-- Whether the parser tries `simplePathPattern` on a trimmed remainder: always, in the
  earlier releases; not when an `@` stands before its first `?` or `#`, in later ones. -/
  triesSimplePath : List Char → Bool
  /-- The outcome of the branches for a remainder with a protocol or an authority; they may
  raise. -/
  other : String → Except JsError String

namespace url

/-- Whitespace the legacy parser trims from both ends of its input: space, tab, carriage
return, line feed, form feed, U+00A0 and U+FEFF; with `trimsControls`, as in later releases,
every code unit below 33 besides U+00A0 and U+FEFF. -/
def isWs (trimsControls : Bool) (c : Char) : Bool :=
  if trimsControls then decide (c.toNat < 33) || c.toNat == 160 || c.toNat == 65279
  else c.toNat == 32 || c.toNat == 9 || c.toNat == 13 || c.toNat == 10 || c.toNat == 12 ||
    c.toNat == 160 || c.toNat == 65279

/-- Backslashes before the first `?` or `#` become forward slashes. -/
def convertBackslashes : List Char → List Char
  | [] => []
  | c :: cs =>
    if c = '?' ∨ c = '#' then c :: cs
    else if c = backslash then '/' :: convertBackslashes cs
    else c :: convertBackslashes cs

/-- Whether `simplePathPattern`, `/^(\/\/?(?!\/)[^?\s]*)(\?[^\s]*)?$/`, matches. -/
def simplePathPattern (rest : List Char) : Bool :=
  rest.head? == some '/' && !(['/', '/', '/'].isPrefixOf rest) &&
    rest.all (fun c => !isJsWhiteSpace c)

/-- Whether `hostPattern`, `/^\/\/[^@/]+@[^@/]+/`, matches. -/
def hostPattern (rest : List Char) : Bool :=
  match rest with
  | a :: b :: r =>
    a == '/' && b == '/' &&
      (let user := r.takeWhile (fun c => !(c == '@' || c == '/'))
       !user.isEmpty &&
         (match r.drop user.length with
          | x :: y :: _ => x == '@' && !(y == '@' || y == '/')
          | _ => false))
  | _ => false

/-- The character codes the legacy parser always escapes, with their escapes: tab, line feed,
carriage return, space, the two quotes, angle brackets, backslash, caret, backtick, braces and
the vertical bar. -/
def autoEscape : List (Nat × List Char) :=
  [(9, "%09".data), (10, "%0A".data), (13, "%0D".data), (32, "%20".data), (34, "%22".data),
   (39, "%27".data), (60, "%3C".data), (62, "%3E".data), (92, "%5C".data), (94, "%5E".data),
   (96, "%60".data), (123, "%7B".data), (124, "%7C".data), (125, "%7D".data)]

/-- What the helper `autoEscapeStr` writes for one character. -/
def autoEscapeChar (c : Char) : List Char :=
  match autoEscape.lookup c.toNat with
  | some escape => escape
  | none => [c]

/-- The helper `autoEscapeStr`. -/
def autoEscapeStr (rest : List Char) : List Char := rest.flatMap autoEscapeChar

/-- The fields of a parsed URL that a host-less input fills. -/
structure Url where
  pathname : List Char
  search : List Char
  hash : List Char
  deriving DecidableEq, Repr

/-- Split a host-less remainder: the hash starts at the first `#`, the search at the first `?`
before it. -/
def parsePath (rest : List Char) : Url :=
  let beforeHash := rest.takeWhile (fun c => !(c == '#'))
  { pathname := beforeHash.takeWhile (fun c => !(c == '?'))
    search := beforeHash.dropWhile (fun c => !(c == '?'))
    hash := rest.dropWhile (fun c => !(c == '#')) }

/-- The method `Url.prototype.format` of a host-less URL without protocol. -/
def formatUrl (u : Url) : List Char :=
  u.pathname.flatMap (fun c => if c = '#' then "%23".data else if c = '?' then "%3F".data else [c])
    ++ u.search.flatMap (fun c => if c = '#' then "%23".data else [c])
    ++ u.hash

/-- The function `url.format` on a string argument: parse with the legacy parser, then format.
The parser trims the input and turns the backslashes before the first `?` or `#` into slashes.
A remainder without `#` on which the parser tries `simplePathPattern`, and which it matches, is
taken as it is.  Any other remainder that starts with `/` and in which `hostPattern` finds no
authority has its `autoEscape` characters escaped and is split into path, search and hash.
What is left (a remainder with a protocol or an authority) is handed to `parser.other`. -/
def format (parser : LegacyParser) (urlString : String) : Except JsError String :=
  let rest := convertBackslashes (trimBoth (isWs parser.trimsControls) urlString.data)
  if parser.triesSimplePath rest && simplePathPattern rest && !rest.contains '#' then
    pure ⟨formatUrl (parsePath rest)⟩
  else if rest.head? == some '/' && !hostPattern rest then
    pure ⟨formatUrl (parsePath (autoEscapeStr rest))⟩
  else parser.other ⟨rest⟩

end url

/-! ## The templates of `generatePath` -/

/-- The object `urlElement`. -/
structure UrlElement where
  protocol : String
  host : String
  pathToRepo : String
  branch : String
  deriving DecidableEq, Repr

/-- The object a template returns. -/
structure UrlSet where
  view : String
  raw : String
  edit : String
  blame : String
  history : String
  deriving DecidableEq, Repr

/-- The closure `proc` that `github` and `bitbucket` each declare, with the same body. -/
def proc (parser : LegacyParser) (urlElement : UrlElement) (filePath : String)
    (tag : String) : Except JsError String := do
  let baseUrl := urlElement.protocol ++ "://" ++ urlElement.host
  let urlPath ← url.format parser
    (path.join ["/", urlElement.pathToRepo, tag, urlElement.branch, filePath])
  pure (baseUrl ++ encodeURI urlPath)

namespace generatePath

/-- The template `generatePath.github`. -/
def github (parser : LegacyParser) (urlElement : UrlElement)
    (filePath : String) : Except JsError UrlSet := do
  let view ← proc parser urlElement filePath "blob"
  let raw ← proc parser urlElement filePath "raw"
  let edit ← proc parser urlElement filePath "edit"
  let blame ← proc parser urlElement filePath "blame"
  let history ← proc parser urlElement filePath "commits"
  pure { view := view, raw := raw, edit := edit, blame := blame, history := history }

/-- The template `generatePath.gitlab`, which calls `this.github`. -/
def gitlab (parser : LegacyParser) (urlElement : UrlElement)
    (filePath : String) : Except JsError UrlSet :=
  github parser urlElement filePath

/-- The template `generatePath.bitbucket`. -/
def bitbucket (parser : LegacyParser) (urlElement : UrlElement)
    (filePath : String) : Except JsError UrlSet := do
  let view ← proc parser urlElement filePath "src"
  let raw ← proc parser urlElement filePath "raw"
  let edit ← proc parser urlElement filePath "src"
  let blame ← proc parser urlElement filePath "annotate"
  let history ← proc parser urlElement filePath "history-node"
  pure { view := view, raw := raw, edit := edit ++ "?mode=edit&spa=0", blame := blame,
         history := history }

/-- The own keys of the object literal `generatePath`. -/
def ownKeys : List String := ["github", "gitlab", "bitbucket"]

/-- The property names an object literal inherits from `Object.prototype`. -/
def inheritedKeys : List String :=
  ["constructor", "__defineGetter__", "__defineSetter__", "hasOwnProperty",
   "__lookupGetter__", "__lookupSetter__", "isPrototypeOf", "propertyIsEnumerable",
   "toString", "valueOf", "__proto__", "toLocaleString"]

/-- The expression `name in generatePath`: own and inherited properties both count. -/
def has (name : String) : Bool := ownKeys.contains name || inheritedKeys.contains name

end generatePath

/-- A value the per-file function can return. -/
inductive JsValue
  | null
  | undefined
  | bool (b : Bool)
  | string (s : String)
  | urlSet (u : UrlSet)
  | callArgument (urlElement : UrlElement) (filePath : String)
  | templateTable
  deriving DecidableEq, Repr

/-- The call `generatePath[service]({ urlElement, filePath })`.  An own key runs its template.
An inherited method of `Object.prototype` runs on the argument object: `constructor` returns the
argument, `toString` and `toLocaleString` the string `[object Object]`, `valueOf` the table,
the three predicates `false`, the two lookups `undefined`.  Every other name is not callable
(or, for the two definers, rejects the argument): a `TypeError`. -/
def generatePath.call (parser : LegacyParser) (service : String)
    (urlElement : UrlElement) (filePath : String) : Except JsError JsValue :=
  if service = "github" then (generatePath.github parser urlElement filePath).map JsValue.urlSet
  else if service = "gitlab" then
    (generatePath.gitlab parser urlElement filePath).map JsValue.urlSet
  else if service = "bitbucket" then
    (generatePath.bitbucket parser urlElement filePath).map JsValue.urlSet
  else if service = "constructor" then pure (JsValue.callArgument urlElement filePath)
  else if service = "toString" ∨ service = "toLocaleString" then
    pure (JsValue.string "[object Object]")
  else if service = "valueOf" then pure JsValue.templateTable
  else if service = "hasOwnProperty" ∨ service = "isPrototypeOf" ∨
      service = "propertyIsEnumerable" then pure (JsValue.bool false)
  else if service = "__lookupGetter__" ∨ service = "__lookupSetter__" then
    pure JsValue.undefined
  else throw JsError.typeError

/-! ## Service detection -/

/-- The fields of the `git-url-parse` result that the source reads. -/
structure UrlInfo where
  source : String
  resource : String
  /-- The port: `none` for `null`; a present port is kept as the text that interpolating it
  into a template literal yields. -/
  port : Option String
  full_name : String
  deriving DecidableEq, Repr

/-- The first capture group of `resource.match(/^(\w+)\./)`, or `none` without a match. -/
def subdomainMatch (resource : String) : Option String :=
  let label := resource.data.takeWhile isWordChar
  if !label.isEmpty && (resource.data.drop label.length).head? == some '.' then some ⟨label⟩
  else none

/-- The function `detectService`. -/
def detectService (urlInfo : UrlInfo) : String :=
  if urlInfo.source = "github.com" then "github"
  else if urlInfo.source = "gitlab.com" then "gitlab"
  else if urlInfo.source = "bitbucket.org" then "bitbucket"
  else
    match subdomainMatch urlInfo.resource with
    | some label => if generatePath.has label then label else "gitlab"
    | none => "gitlab"

/-! ## The environment and `getUrlGenerator` -/

/-- What the external collaborators answer. -/
structure Env where
  /-- The field `root` of `gitRepoInfo()`. -/
  gitRepoInfoRoot : Option String
  /-- The value of `path.resolve(execFileSync("hg", ["root"]))`, or the exception. -/
  hgRoot : Except JsError String
  /-- The output of `git config --get remote.<name>.url`, or the exception of a failed run. -/
  gitConfigRemoteUrl : String → Except JsError String
  /-- The parser `gitUrlParse`. -/
  gitUrlParse : String → Except JsError UrlInfo
  /-- The output of `git symbolic-ref --short HEAD`, or the exception of a failed run. -/
  gitSymbolicRef : Except JsError String
  /-- The `stdout` of `git ls-tree --full-name --name-only HEAD <path>`; `none` is the `null`
  that `spawnSync` leaves when the process could not be started. -/
  gitLsTree : String → Option String

/-- The options object of the plugin. -/
structure Options where
  vcs : Option String
  service : Option String
  remote : Option String
  https : Option Bool

/-- The function `getRepoRelFilePath` of the git branch: `stdout.trim() || null`. -/
def getRepoRelFilePath (env : Env) (absPath : String) : Except JsError (Option String) :=
  match env.gitLsTree absPath with
  | none => throw JsError.typeError
  | some out => pure (if truthy (some (jsTrim out)) then some (jsTrim out) else none)

/-- The closure `getUrlGenerator` returns, once `getRepoRelFilePath` is defined. -/
def genUrl (parser : LegacyParser) (env : Env) (service : String)
    (urlElement : UrlElement) (absoluteFilePath : String) : Except JsError JsValue := do
  let repoRelFilePath ← getRepoRelFilePath env absoluteFilePath
  match repoRelFilePath with
  | some filePath =>
    if truthy (some filePath) then generatePath.call parser service urlElement filePath
    else pure JsValue.null
  | none => pure JsValue.null

/-- The field `urlElement.host`: the resource, then `:port` when the port is not `null`. -/
def hostOf (urlInfo : UrlInfo) : String :=
  urlInfo.resource ++
    (match urlInfo.port with
     | some port => ":" ++ port
     | none => "")

/-- The function `getUrlGenerator`.  Outside the git branch `getRepoRelFilePath` stays
`undefined`, and calling it in the returned closure raises a `TypeError`. -/
def getUrlGenerator (parser : LegacyParser) (env : Env) (vcs : Option String)
    (service : Option String) (remote : Option String) (https : Option Bool) :
    Except JsError (String → Except JsError JsValue) :=
  let remote := remote.getD "origin"
  let protocol := if https.getD true then "https" else "http"
  if vcs = some "git" then do
    let rawUrl ← (env.gitConfigRemoteUrl remote).map jsTrim
    let urlInfo ← env.gitUrlParse rawUrl
    let service := if truthy service then service.getD "" else detectService urlInfo
    let branch ← env.gitSymbolicRef.map jsTrim
    let urlElement : UrlElement :=
      { protocol := protocol, host := hostOf urlInfo, pathToRepo := urlInfo.full_name,
        branch := branch }
    pure (genUrl parser env service urlElement)
  else
    pure (fun _ => throw JsError.typeError)

/-! ## The plugin entry point -/

/-- An entry of `supportedVcs`; `getRoot` answers `none` for `false`. -/
structure Vcs where
  name : String
  getRoot : Env → Option String

/-- The table `supportedVcs`. -/
def supportedVcs : List Vcs :=
  [ { name := "git"
      getRoot := fun env => if truthy env.gitRepoInfoRoot then env.gitRepoInfoRoot else none },
    { name := "mercurial"
      getRoot := fun env =>
        match env.hgRoot with
        | Except.ok root => some root
        | Except.error _ => none },
    { name := "subversion"
      getRoot := fun _ => none } ]

/-- The result `{ repoRootDir, vcs }` of the locating step. -/
structure Located where
  repoRootDir : Option String
  vcs : Option String
  deriving DecidableEq, Repr

/-- The loop over `supportedVcs` that stops at the first truthy root. -/
def probeAll (env : Env) (vcs : Option String) : List Vcs → Located
  | [] => { repoRootDir := none, vcs := vcs }
  | vcsEntry :: entries =>
    let repoRoot := vcsEntry.getRoot env
    if truthy repoRoot then { repoRootDir := repoRoot, vcs := some vcsEntry.name }
    else probeAll env vcs entries

/-- The immediately invoked function that computes `opt`. -/
def locate (env : Env) (vcs : Option String) : Located :=
  if truthy vcs then
    match supportedVcs.find? (fun v => some v.name == vcs) with
    | some vcsUtil =>
      let repoRoot := vcsUtil.getRoot env
      { repoRootDir := if truthy repoRoot then repoRoot else none, vcs := vcs }
    | none => { repoRootDir := none, vcs := none }
  else probeAll env vcs supportedVcs

/-- The function `module.exports`: the `genUrl` that `extendPageData` applies to
`page._filePath`. -/
def plugin (parser : LegacyParser) (env : Env) (option : Options) :
    Except JsError (String → Except JsError JsValue) :=
  let opt := locate env option.vcs
  getUrlGenerator parser env opt.vcs option.service option.remote option.https

/-! ## Predicates used in the statements -/

/-- No two neighbouring characters are both `/`. -/
def NoDoubleSlash (cs : List Char) : Prop :=
  List.Chain' (fun a b => ¬ (a = '/' ∧ b = '/')) cs

/-- The text has `//` at index `i`. -/
def doubleSlashAt (cs : List Char) (i : Nat) : Prop :=
  cs[i]? = some '/' ∧ cs[i + 1]? = some '/'

instance (cs : List Char) (i : Nat) : Decidable (doubleSlashAt cs i) := by
  unfold doubleSlashAt
  infer_instance

/-- A kept segment: non-empty, without `/`, made of characters of `cs`. -/
def path.Segment (cs : List Char) (s : List Char) : Prop :=
  s ≠ [] ∧ ∀ c ∈ s, c ≠ '/' ∧ c ∈ cs

/-- A per-character rewriting that keeps every `/` and writes no new one. -/
def SlashFaithful (f : Char → List Char) : Prop :=
  f '/' = ['/'] ∧ ∀ c, c ≠ '/' → f c ≠ [] ∧ ∀ d ∈ f c, d ≠ '/'

/-- The only `//` of the URL is the one right after the scheme and its colon. -/
def OnlySchemeSlashes (protocol : String) (url : String) : Prop :=
  ∀ i, doubleSlashAt url.data i ↔ i = protocol.data.length + 1

/-- The text `fp` is `out` without the whitespace at its two ends: `out` is whitespace, then
`fp`, then whitespace, and `fp` starts and ends with a character that is not whitespace. -/
def TrimmedTo (out fp : String) : Prop :=
  ∃ pre post, out.data = pre ++ fp.data ++ post ∧
    (∀ c ∈ pre, isJsWhiteSpace c = true) ∧ (∀ c ∈ post, isJsWhiteSpace c = true) ∧
    (∃ a, fp.data.head? = some a ∧ isJsWhiteSpace a = false) ∧
    ∃ b, fp.data.getLast? = some b ∧ isJsWhiteSpace b = false

/-- The tags the templates pass to `proc`. -/
def generatePath.tags : List String :=
  ["blob", "raw", "edit", "blame", "commits", "src", "annotate", "history-node"]

/-- The joined path of a tag starts with a slash and a backslash: the one shape in which
`url.format`, which turns the backslash into a second slash, may find an authority. -/
def joinStartsBackslash (urlElement : UrlElement) (filePath tag : String) : Bool :=
  (path.join ["/", urlElement.pathToRepo, tag, urlElement.branch, filePath]).data.tail.head? ==
    some backslash

/-- Every URL of the set starts with the base URL. -/
def UrlSet.StartsWith (u : UrlSet) (baseUrl : String) : Prop :=
  baseUrl.data <+: u.view.data ∧ baseUrl.data <+: u.raw.data ∧ baseUrl.data <+: u.edit.data ∧
    baseUrl.data <+: u.blame.data ∧ baseUrl.data <+: u.history.data

/-! ## Sample inputs -/

/-- The parser of the earlier releases, with the open branches raising. -/
def rejecting : LegacyParser :=
  { trimsControls := false
    triesSimplePath := fun _ => true
    other := fun _ => Except.error JsError.uriError }

/-- The parser of the later releases, with the open branches raising: it trims every code unit
below 33 and does not try `simplePathPattern` when an `@` stands before the first `?` or `#` of
the remainder. -/
def rejectingLater : LegacyParser :=
  { trimsControls := true
    triesSimplePath := fun rest =>
      !(rest.takeWhile (fun c => !(c == '?' || c == '#'))).contains '@'
    other := fun _ => Except.error JsError.uriError }

/-- The descriptor of `git@github.com:acme/site.git` on branch `main`, over https. -/
def sampleRemote : UrlElement :=
  { protocol := "https", host := "github.com", pathToRepo := "acme/site", branch := "main" }

/-- The file name `a\\b`: an `a`, two backslashes, a `b`. -/
def backslashFile : String := String.mk ['a', backslash, backslash, 'b']

/-- What `git-url-parse` reports for `git@github.com:acme/site.git`. -/
def githubInfo : UrlInfo :=
  { source := "github.com", resource := "github.com", port := none, full_name := "acme/site" }

/-- A self-hosted remote whose first host label is `constructor`. -/
def constructorInfo : UrlInfo :=
  { source := "example.org", resource := "constructor.example.org", port := none,
    full_name := "acme/site" }

/-- A remote on `example.org` that names the port 443. -/
def port443Info : UrlInfo :=
  { source := "example.org", resource := "example.org", port := some "443",
    full_name := "acme/site" }

/-- A working copy at `/repo` on branch `main` whose remote parses to `urlInfo` and whose only
tracked file is `docs/intro.md`; mercurial is absent. -/
def sampleEnv (urlInfo : UrlInfo) : Env where
  gitRepoInfoRoot := some "/repo"
  hgRoot := Except.error JsError.processError
  gitConfigRemoteUrl := fun _ => Except.ok "git@github.com:acme/site.git\n"
  gitUrlParse := fun _ => Except.ok urlInfo
  gitSymbolicRef := Except.ok "main\n"
  gitLsTree := fun absPath =>
    if absPath = "/repo/docs/intro.md" then some "docs/intro.md\n" else some ""

/-- The sample working copy on `github.com`, except that the tracked-path query prints `out`
for every path. -/
def lsTreeEnv (out : String) : Env :=
  { sampleEnv githubInfo with gitLsTree := fun _ => some out }

/-- The name `docs/intro.md` after a byte order mark, a tab, a line tabulation, a form feed, a
space, a no-break space and eight more space and separator characters, and before a carriage
return and a line feed. -/
def paddedName : String :=
  "\uFEFF\t\x0B\x0C \u00A0\u1680\u2000\u200A\u2028\u2029\u202F\u205F\u3000docs/intro.md\r\n"

/-- What `git ls-tree` prints for the tracked file `docs/ä.md`: the name in double quotes, the
two bytes of `ä` as backslash and octal digits, and a line feed. -/
def quotedName : String :=
  String.mk (['"', 'd', 'o', 'c', 's', '/', backslash, '3', '0', '3', backslash, '2', '4', '4',
    '.', 'm', 'd', '"', Char.ofNat 10])

/-! ## The host as the specification words it -/

/-- The default port of a scheme. -/
def defaultPort (protocol : String) : Option String :=
  if protocol = "https" then some "443" else if protocol = "http" then some "80" else none

/-- The host of the base URL in the specification's words: the resource, followed by `:` and the
port only if a port is present and is not the default port of the scheme. -/
def hostPerSpec (protocol : String) (urlInfo : UrlInfo) : String :=
  urlInfo.resource ++
    (match urlInfo.port with
     | some port => if some port = defaultPort protocol then "" else ":" ++ port
     | none => "")

/-! ## Facts about trimming -/

theorem dropWhile_append_of_all {p : Char → Bool} {pre : List Char} (l : List Char)
    (h : ∀ c ∈ pre, p c = true) : (pre ++ l).dropWhile p = l.dropWhile p := by
  induction pre with
  | nil => rfl
  | cons a pre ih =>
    have ha : p a = true := h a (List.mem_cons_self _ _)
    rw [List.cons_append, List.dropWhile_cons, if_pos ha]
    exact ih (fun c hc => h c (List.mem_cons_of_mem _ hc))

theorem dropWhile_of_head {p : Char → Bool} {l : List Char} {a : Char} (ha : l.head? = some a)
    (hpa : p a = false) : l.dropWhile p = l := by
  cases l with
  | nil => rfl
  | cons b t =>
    have hb : b = a := by simpa using ha
    subst hb
    rw [List.dropWhile_cons, if_neg (by simp [hpa])]

/-- Trimming a text that is `p`-characters, then `fp`, then `p`-characters, where `fp` starts
and ends outside `p`, leaves `fp`. -/
theorem trimBoth_of_parts {p : Char → Bool} {pre fp post : List Char} {a b : Char}
    (hpre : ∀ c ∈ pre, p c = true) (hpost : ∀ c ∈ post, p c = true)
    (ha : fp.head? = some a) (hpa : p a = false) (hb : fp.getLast? = some b)
    (hpb : p b = false) : trimBoth p (pre ++ fp ++ post) = fp := by
  unfold trimBoth
  have hhead : (fp ++ post).head? = some a := by
    cases fp with
    | nil => simp at ha
    | cons x t => simpa using ha
  rw [List.append_assoc, dropWhile_append_of_all _ hpre, dropWhile_of_head hhead hpa,
    List.reverse_append,
    dropWhile_append_of_all _ (fun c hc => hpost c (List.mem_reverse.mp hc)),
    dropWhile_of_head (by rw [List.head?_reverse]; exact hb) hpb, List.reverse_reverse]

/-- The trimmed part is empty exactly when every character is a `p`-character. -/
theorem trimBoth_eq_nil_iff {p : Char → Bool} {cs : List Char} :
    trimBoth p cs = [] ↔ ∀ c ∈ cs, p c = true := by
  unfold trimBoth
  rw [List.reverse_eq_nil_iff, List.dropWhile_eq_nil_iff]
  constructor
  · intro h c hc
    rw [← List.takeWhile_append_dropWhile p cs, List.mem_append] at hc
    rcases hc with hc | hc
    · exact List.mem_takeWhile_imp hc
    · exact h c (List.mem_reverse.mpr hc)
  · intro h c hc
    exact h c ((List.dropWhile_suffix p).subset (List.mem_reverse.mp hc))

/-- Every text is `p`-characters, then its trimmed part, then `p`-characters; a trimmed part
that is not empty starts and ends outside `p`. -/
theorem trimBoth_parts (p : Char → Bool) (cs : List Char) (h : trimBoth p cs ≠ []) :
    ∃ pre post, cs = pre ++ trimBoth p cs ++ post ∧ (∀ c ∈ pre, p c = true) ∧
      (∀ c ∈ post, p c = true) ∧ (∃ a, (trimBoth p cs).head? = some a ∧ p a = false) ∧
      ∃ b, (trimBoth p cs).getLast? = some b ∧ p b = false := by
  have hsplit : cs.dropWhile p =
      trimBoth p cs ++ ((cs.dropWhile p).reverse.takeWhile p).reverse := by
    unfold trimBoth
    rw [← List.reverse_append, List.takeWhile_append_dropWhile, List.reverse_reverse]
  refine ⟨cs.takeWhile p, ((cs.dropWhile p).reverse.takeWhile p).reverse, ?_, ?_, ?_, ?_, ?_⟩
  · rw [List.append_assoc, ← hsplit, List.takeWhile_append_dropWhile]
  · exact fun c hc => List.mem_takeWhile_imp hc
  · exact fun c hc => List.mem_takeWhile_imp (List.mem_reverse.mp hc)
  · cases ht : trimBoth p cs with
    | nil => exact absurd ht h
    | cons a t =>
      refine ⟨a, rfl, ?_⟩
      have hd := List.head?_dropWhile_not p cs
      rw [hsplit, ht] at hd
      simpa using hd
  · have hne : (cs.dropWhile p).reverse.dropWhile p ≠ [] := by
      intro e
      apply h
      unfold trimBoth
      rw [e]
      rfl
    have hd := List.head_dropWhile_not p (cs.dropWhile p).reverse hne
    refine ⟨((cs.dropWhile p).reverse.dropWhile p).head hne, ?_, hd⟩
    unfold trimBoth
    rw [List.getLast?_reverse, List.head?_eq_head hne]

theorem jsTrim_eq_empty_iff (out : String) :
    jsTrim out = "" ↔ ∀ c ∈ out.data, isJsWhiteSpace c = true := by
  rw [← trimBoth_eq_nil_iff, String.ext_iff]
  rfl

theorem trimmedTo_jsTrim (out : String) (h : jsTrim out ≠ "") : TrimmedTo out (jsTrim out) := by
  have hne : trimBoth isJsWhiteSpace out.data ≠ [] := by
    intro e
    apply h
    rw [String.ext_iff]
    exact e
  obtain ⟨pre, post, hsplit, hpre, hpost, ha, hb⟩ := trimBoth_parts isJsWhiteSpace out.data hne
  exact ⟨pre, post, hsplit, hpre, hpost, ha, hb⟩

theorem jsTrim_of_trimmedTo {out fp : String} (h : TrimmedTo out fp) :
    jsTrim out = fp ∧ fp ≠ "" := by
  obtain ⟨pre, post, hsplit, hpre, hpost, ⟨a, ha, hpa⟩, ⟨b, hb, hpb⟩⟩ := h
  constructor
  · rw [String.ext_iff]
    show trimBoth isJsWhiteSpace out.data = fp.data
    rw [hsplit]
    exact trimBoth_of_parts hpre hpost ha hpa hb hpb
  · intro e
    rw [e] at ha
    simp at ha

/-! ## Facts about `path.join` -/

namespace path

theorem splitSlash_cons (c : Char) (cs : List Char) :
    splitSlash (c :: cs) =
      if c = '/' then [] :: splitSlash cs
      else match splitSlash cs with
        | [] => [[c]]
        | s :: r => (c :: s) :: r := by
  simp [splitSlash]

theorem mem_splitSlash {cs : List Char} {s : List Char} (hs : s ∈ splitSlash cs) :
    ∀ c ∈ s, c ≠ '/' ∧ c ∈ cs := by
  induction cs generalizing s with
  | nil =>
    simp [splitSlash] at hs
    subst hs
    simp
  | cons a cs ih =>
    rw [splitSlash_cons] at hs
    by_cases ha : a = '/'
    · simp only [ha, if_true, List.mem_cons] at hs
      rcases hs with rfl | hs
      · simp
      · intro c hc
        exact ⟨(ih hs c hc).1, List.mem_cons_of_mem _ (ih hs c hc).2⟩
    · simp only [ha, if_false] at hs
      cases hsp : splitSlash cs with
      | nil =>
        rw [hsp] at hs
        simp at hs
        subst hs
        intro c hc
        simp at hc
        subst hc
        exact ⟨ha, List.mem_cons_self _ _⟩
      | cons t r =>
        rw [hsp] at hs
        simp only [List.mem_cons] at hs
        rcases hs with rfl | hs
        · intro c hc
          simp only [List.mem_cons] at hc
          rcases hc with rfl | hc
          · exact ⟨ha, List.mem_cons_self _ _⟩
          · have := ih (s := t) (by rw [hsp]; exact List.mem_cons_self _ _) c hc
            exact ⟨this.1, List.mem_cons_of_mem _ this.2⟩
        · intro c hc
          have := ih (s := s) (by rw [hsp]; exact List.mem_cons_of_mem _ hs) c hc
          exact ⟨this.1, List.mem_cons_of_mem _ this.2⟩

theorem normalizeStep_segments {cs : List Char} {b : Bool} {stack : List (List Char)}
    {seg : List Char} (hstack : ∀ s ∈ stack, Segment cs s)
    (hseg : ∀ c ∈ seg, c ≠ '/' ∧ c ∈ cs) :
    ∀ s ∈ normalizeStep b stack seg, Segment cs s := by
  unfold normalizeStep
  split
  · exact hstack
  · rename_i h1
    have hne : seg ≠ [] := fun h => h1 (Or.inl h)
    split
    · split
      · rename_i top below
        split
        · split
          · intro s hs
            simp only [List.mem_cons] at hs
            rcases hs with rfl | hs
            · exact ⟨hne, hseg⟩
            · exact hstack s (by simpa using hs)
          · exact hstack
        · intro s hs
          exact hstack s (List.mem_cons_of_mem _ hs)
      · split
        · intro s hs
          simp at hs
          subst hs
          exact ⟨hne, hseg⟩
        · simp
    · intro s hs
      simp only [List.mem_cons] at hs
      rcases hs with rfl | hs
      · exact ⟨hne, hseg⟩
      · exact hstack s hs

theorem foldl_normalizeStep_segments {cs : List Char} {b : Bool} (segs : List (List Char))
    (stack : List (List Char)) (hstack : ∀ s ∈ stack, Segment cs s)
    (hsegs : ∀ seg ∈ segs, ∀ c ∈ seg, c ≠ '/' ∧ c ∈ cs) :
    ∀ s ∈ segs.foldl (normalizeStep b) stack, Segment cs s := by
  induction segs generalizing stack with
  | nil => simpa using hstack
  | cons seg segs ih =>
    simp only [List.foldl_cons]
    apply ih
    · exact normalizeStep_segments hstack (hsegs seg (List.mem_cons_self _ _))
    · intro s hs
      exact hsegs s (List.mem_cons_of_mem _ hs)

theorem normalizeSegments_segments (b : Bool) (cs : List Char) :
    ∀ s ∈ normalizeSegments b cs, Segment cs s := by
  intro s hs
  unfold normalizeSegments at hs
  rw [List.mem_reverse] at hs
  exact foldl_normalizeStep_segments (splitSlash cs) [] (by simp)
    (fun seg hseg => mem_splitSlash hseg) s hs


theorem noDoubleSlash_of_not_mem {l : List Char} (h : ∀ c ∈ l, c ≠ '/') : NoDoubleSlash l := by
  induction l with
  | nil => exact List.chain'_nil
  | cons a l ih =>
    refine List.Chain'.cons' (ih fun c hc => h c (List.mem_cons_of_mem _ hc)) ?_
    intro y _ hay
    exact h a (List.mem_cons_self _ _) hay.1

theorem mem_joinSlash {segs : List (List Char)} {c : Char} (hc : c ∈ joinSlash segs) :
    c = '/' ∨ ∃ s ∈ segs, c ∈ s := by
  induction segs with
  | nil => simp [joinSlash] at hc
  | cons s rest ih =>
    cases rest with
    | nil =>
      simp only [joinSlash] at hc
      exact Or.inr ⟨s, List.mem_cons_self _ _, hc⟩
    | cons t rest =>
      simp only [joinSlash, List.mem_append, List.mem_cons] at hc
      rcases hc with hc | rfl | hc
      · exact Or.inr ⟨s, List.mem_cons_self _ _, hc⟩
      · exact Or.inl rfl
      · rcases ih hc with h | ⟨u, hu, hcu⟩
        · exact Or.inl h
        · exact Or.inr ⟨u, List.mem_cons_of_mem _ hu, hcu⟩

theorem joinSlash_good {segs : List (List Char)}
    (h : ∀ s ∈ segs, s ≠ [] ∧ ∀ c ∈ s, c ≠ '/') :
    NoDoubleSlash (joinSlash segs) ∧ (∀ c ∈ (joinSlash segs).head?, c ≠ '/') ∧
      (∀ c ∈ (joinSlash segs).getLast?, c ≠ '/') ∧ (segs ≠ [] → joinSlash segs ≠ []) := by
  induction segs with
  | nil => simp [joinSlash, NoDoubleSlash]
  | cons s rest ih =>
    have hs := h s (List.mem_cons_self _ _)
    cases rest with
    | nil =>
      simp only [joinSlash]
      refine ⟨noDoubleSlash_of_not_mem hs.2, ?_, ?_, fun _ => hs.1⟩
      · intro c hc
        exact hs.2 c (List.mem_of_mem_head? hc)
      · intro c hc
        exact hs.2 c (List.mem_of_mem_getLast? hc)
    | cons t rest =>
      obtain ⟨ih1, ih2, ih3, ih4⟩ := ih (fun u hu => h u (List.mem_cons_of_mem _ hu))
      have hJ : joinSlash (t :: rest) ≠ [] := ih4 (by simp)
      simp only [joinSlash]
      refine ⟨?_, ?_, ?_, by simp⟩
      · refine List.Chain'.append (noDoubleSlash_of_not_mem hs.2)
          (List.Chain'.cons' ih1 ?_) ?_
        · intro y hy hyy
          exact ih2 y hy hyy.2
        · intro x hx y _ hxy
          exact hs.2 x (List.mem_of_mem_getLast? hx) hxy.1
      · intro c hc
        cases s with
        | nil => exact absurd rfl hs.1
        | cons a s =>
          simp at hc
          subst hc
          exact hs.2 _ (List.mem_cons_self _ _)
      · intro c hc
        rw [List.getLast?_append_of_ne_nil _ (by simp)] at hc
        cases hj : joinSlash (t :: rest) with
        | nil => exact absurd hj hJ
        | cons j js =>
          rw [hj, List.getLast?_cons_cons] at hc
          exact ih3 c (by rw [hj]; exact hc)

theorem normalizeChars_root_eq (t : List Char) :
    normalizeChars ('/' :: t) =
      if normalizeString ('/' :: t) false = [] then ['/']
      else '/' :: (if (('/' :: t).getLast? == some '/') = true
        then normalizeString ('/' :: t) false ++ ['/'] else normalizeString ('/' :: t) false) := by
  simp [normalizeChars]

theorem normalizeChars_root (t : List Char) :
    ∃ r, normalizeChars ('/' :: t) = '/' :: r ∧ NoDoubleSlash ('/' :: r) ∧
      ∀ c ∈ r, c = '/' ∨ c ∈ t := by
  rw [normalizeChars_root_eq]
  have hseg := normalizeSegments_segments false ('/' :: t)
  have hgood : ∀ s ∈ normalizeSegments false ('/' :: t), s ≠ [] ∧ ∀ c ∈ s, c ≠ '/' :=
    fun s hs => ⟨(hseg s hs).1, fun c hc => ((hseg s hs).2 c hc).1⟩
  obtain ⟨g1, g2, g3, _⟩ := joinSlash_good hgood
  have hmem : ∀ c ∈ normalizeString ('/' :: t) false, c = '/' ∨ c ∈ t := by
    intro c hc
    rcases mem_joinSlash hc with h | ⟨s, hs, hcs⟩
    · exact Or.inl h
    · have := ((hseg s hs).2 c hcs).2
      simpa using this
  by_cases hres : normalizeString ('/' :: t) false = []
  · rw [if_pos hres]
    exact ⟨[], rfl, List.chain'_singleton _, by simp⟩
  · rw [if_neg hres]
    by_cases htr : (('/' :: t).getLast? == some '/') = true
    · rw [if_pos htr]
      refine ⟨_, rfl, ?_, ?_⟩
      · refine List.Chain'.cons' (List.Chain'.append g1 (List.chain'_singleton _) ?_) ?_
        · intro x hx y _ hxy
          exact g3 x hx hxy.1
        · intro y hy hyy
          rw [List.head?_append_of_ne_nil _ hres] at hy
          exact g2 y hy hyy.2
      · intro c hc
        simp only [List.mem_append, List.mem_singleton] at hc
        rcases hc with hc | hc
        · exact hmem c hc
        · exact Or.inl hc
    · rw [if_neg htr]
      refine ⟨_, rfl, List.Chain'.cons' g1 ?_, hmem⟩
      intro y hy hyy
      exact g2 y hy hyy.2

theorem joinSlash_root (ps : List (List Char)) :
    ∃ t, joinSlash (['/'] :: ps) = '/' :: t ∧ ∀ c ∈ t, c = '/' ∨ ∃ s ∈ ps, c ∈ s := by
  cases ps with
  | nil => exact ⟨[], rfl, by simp⟩
  | cons p ps =>
    refine ⟨'/' :: joinSlash (p :: ps), rfl, ?_⟩
    intro c hc
    simp only [List.mem_cons] at hc
    rcases hc with hc | hc
    · exact Or.inl hc
    · rcases mem_joinSlash hc with h | ⟨s, hs, hcs⟩
      · exact Or.inl h
      · exact Or.inr ⟨s, by simpa using hs, hcs⟩

/-- A join whose first argument is `/` starts with one slash, has no doubled slash, and is made
of slashes and characters of the other arguments. -/
theorem join_root (rest : List String) :
    ∃ r, (join ("/" :: rest)).data = '/' :: r ∧ NoDoubleSlash ('/' :: r) ∧
      ∀ c ∈ r, c = '/' ∨ ∃ a ∈ rest, c ∈ a.data := by
  have hparts : ((("/" :: rest).map String.data).filter (fun a => !a.isEmpty)) =
      ['/'] :: ((rest.map String.data).filter (fun a => !a.isEmpty)) := by
    simp [List.filter_cons]
  obtain ⟨t, ht, htmem⟩ := joinSlash_root ((rest.map String.data).filter (fun a => !a.isEmpty))
  obtain ⟨r, hr, hnd, hrmem⟩ := normalizeChars_root t
  refine ⟨r, ?_, hnd, ?_⟩
  · unfold join
    simp only [hparts]
    rw [if_neg (by simp), ht, hr]
  · intro c hc
    rcases hrmem c hc with h | h
    · exact Or.inl h
    · rcases htmem c h with h | ⟨s, hs, hcs⟩
      · exact Or.inl h
      · simp only [List.mem_filter, List.mem_map] at hs
        obtain ⟨⟨a, ha, rfl⟩, _⟩ := hs
        exact Or.inr ⟨a, ha, hcs⟩

end path

/-! ## Facts about the per-character rewritings -/

theorem flatMap_head_slash {f : Char → List Char} (hf : SlashFaithful f) (l : List Char)
    (h : (l.flatMap f).head? = some '/') : l.head? = some '/' := by
  cases l with
  | nil => simp at h
  | cons a l =>
    by_cases ha : a = '/'
    · simp [ha]
    · obtain ⟨hne, hmem⟩ := hf.2 a ha
      rw [List.flatMap_cons, List.head?_append_of_ne_nil _ hne] at h
      exact absurd rfl (hmem '/' (List.mem_of_mem_head? h))

theorem flatMap_cons_slash {f : Char → List Char} (hf : SlashFaithful f) (l : List Char) :
    ('/' :: l).flatMap f = '/' :: l.flatMap f := by
  rw [List.flatMap_cons, hf.1]
  rfl

theorem flatMap_noDoubleSlash {f : Char → List Char} (hf : SlashFaithful f) {l : List Char}
    (h : NoDoubleSlash l) : NoDoubleSlash (l.flatMap f) := by
  induction l with
  | nil => exact List.chain'_nil
  | cons a l ih =>
    rw [List.flatMap_cons]
    have hl : NoDoubleSlash l := List.Chain'.tail h
    have hfa : NoDoubleSlash (f a) := by
      by_cases ha : a = '/'
      · rw [ha, hf.1]
        exact List.chain'_singleton _
      · exact path.noDoubleSlash_of_not_mem (hf.2 a ha).2
    refine List.Chain'.append hfa (ih hl) ?_
    intro x hx y hy hxy
    have ha : a = '/' := by
      by_contra ha
      exact (hf.2 a ha).2 x (List.mem_of_mem_getLast? hx) hxy.1
    have hy' : (l.flatMap f).head? = some '/' := by
      rw [← hxy.2]
      exact hy
    have hhead := flatMap_head_slash hf l hy'
    exact List.Chain'.rel_head? h hhead ⟨ha, rfl⟩

theorem flatMap_eq_self {f : Char → List Char} {l : List Char} (h : ∀ c ∈ l, f c = [c]) :
    l.flatMap f = l := by
  induction l with
  | nil => rfl
  | cons a l ih =>
    rw [List.flatMap_cons, h a (List.mem_cons_self _ _),
      ih (fun c hc => h c (List.mem_cons_of_mem _ hc))]
    rfl

theorem hexDigit_ne_slash (n : Nat) : hexDigit n ≠ '/' := by
  unfold hexDigit
  split <;> decide

theorem encodeChar_slashFaithful : SlashFaithful encodeChar := by
  refine ⟨by decide, ?_⟩
  intro c hc
  unfold encodeChar
  split
  · exact ⟨by simp, by simpa using hc⟩
  · constructor
    · unfold utf8Bytes
      simp only
      split_ifs <;> simp [percentByte]
    · intro d hd
      simp only [List.mem_flatMap, percentByte, List.mem_cons, List.mem_singleton,
        List.not_mem_nil, or_false] at hd
      obtain ⟨b, _, hb⟩ := hd
      rcases hb with rfl | rfl | rfl
      · decide
      · exact hexDigit_ne_slash _
      · exact hexDigit_ne_slash _

theorem mem_of_lookup {t : List (Nat × List Char)} {k : Nat} {v : List Char}
    (h : t.lookup k = some v) : (k, v) ∈ t := by
  induction t with
  | nil => simp [List.lookup] at h
  | cons p t ih =>
    obtain ⟨a, b⟩ := p
    by_cases hk : k = a
    · subst hk
      simp [List.lookup] at h
      subst h
      exact List.mem_cons_self _ _
    · have hka : (k == a) = false := by simpa using hk
      simp only [List.lookup, hka] at h
      exact List.mem_cons_of_mem _ (ih h)

theorem autoEscapeChar_cases (c : Char) :
    url.autoEscapeChar c = [c] ∨
      (url.autoEscapeChar c ≠ [] ∧ (∀ d ∈ url.autoEscapeChar c, d ≠ '/') ∧
        (url.autoEscapeChar c).length = 3) := by
  unfold url.autoEscapeChar
  cases h : url.autoEscape.lookup c.toNat with
  | none => exact Or.inl rfl
  | some v =>
    right
    have hmem := mem_of_lookup h
    have hall : ∀ p ∈ url.autoEscape, p.2 ≠ [] ∧ (∀ d ∈ p.2, d ≠ '/') ∧ p.2.length = 3 := by
      decide
    exact hall _ hmem

theorem autoEscapeChar_slashFaithful : SlashFaithful url.autoEscapeChar := by
  refine ⟨by decide, ?_⟩
  intro c hc
  rcases autoEscapeChar_cases c with h | h
  · rw [h]
    exact ⟨List.cons_ne_nil _ _, fun d hd => by rw [List.mem_singleton.mp hd]; exact hc⟩
  · exact ⟨h.1, h.2.1⟩


/-! ## Facts about `url.format` -/

namespace url

theorem formatUrl_parsePath (r : List Char) : formatUrl (parsePath r) = r := by
  unfold formatUrl parsePath
  simp only
  rw [flatMap_eq_self, flatMap_eq_self, List.takeWhile_append_dropWhile,
    List.takeWhile_append_dropWhile]
  · intro c hc
    have h1 : c ∈ r.takeWhile (fun c => !(c == '#')) :=
      (List.dropWhile_suffix _).subset hc
    have h2 := List.mem_takeWhile_imp h1
    have h3 : c ≠ '#' := by simpa using h2
    simp [h3]
  · intro c hc
    have hpre : (r.takeWhile (fun c => !(c == '#'))).takeWhile (fun c => !(c == '?')) <+:
        r.takeWhile (fun c => !(c == '#')) := List.takeWhile_prefix _
    have h1 : c ∈ r.takeWhile (fun c => !(c == '#')) := hpre.subset hc
    have h2 := List.mem_takeWhile_imp h1
    have h3 : c ≠ '#' := by simpa using h2
    have h4 := List.mem_takeWhile_imp hc
    have h5 : c ≠ '?' := by simpa using h4
    simp [h3, h5]

theorem convertBackslashes_eq_self {l : List Char} (h : backslash ∉ l) :
    convertBackslashes l = l := by
  induction l with
  | nil => rfl
  | cons a l ih =>
    have ha : a ≠ backslash := fun e => h (e ▸ List.mem_cons_self _ _)
    have hl : backslash ∉ l := fun e => h (List.mem_cons_of_mem _ e)
    unfold convertBackslashes
    split
    · rfl
    · first
        | rw [if_neg ha, ih hl]
        | rw [ih hl]

theorem trimBoth_root {p : Char → Bool} (hp : p '/' = false) (r : List Char) :
    ∃ t, trimBoth p ('/' :: r) = '/' :: t ∧ t <+: r := by
  have h1 : trimBoth p ('/' :: r) = List.rdropWhile p ('/' :: r) := by
    unfold trimBoth List.rdropWhile
    simp [List.dropWhile, hp]
  rw [h1]
  obtain ⟨s, hs⟩ := List.rdropWhile_prefix (p := p) (l := '/' :: r)
  cases ht : List.rdropWhile p ('/' :: r) with
  | nil =>
    have := (List.rdropWhile_eq_nil_iff (p := p) (l := '/' :: r)).mp ht '/'
      (List.mem_cons_self _ _)
    rw [hp] at this
    exact absurd this (by simp)
  | cons a t =>
    rw [ht] at hs
    simp only [List.cons_append, List.cons.injEq] at hs
    exact ⟨t, by rw [hs.1], ⟨s, hs.2⟩⟩

theorem hostPattern_root {t : List Char} (h : NoDoubleSlash ('/' :: t)) :
    hostPattern ('/' :: t) = false := by
  cases t with
  | nil => rfl
  | cons b r =>
    have hb : b ≠ '/' := fun e => (List.chain'_cons.mp h).1 ⟨rfl, e⟩
    simp [hostPattern, hb]

theorem isWs_slash (trimsControls : Bool) : isWs trimsControls '/' = false := by
  cases trimsControls <;> decide

theorem format_eq (parser : LegacyParser) (s : String) :
    format parser s =
      if (parser.triesSimplePath
            (convertBackslashes (trimBoth (isWs parser.trimsControls) s.data)) &&
          simplePathPattern (convertBackslashes (trimBoth (isWs parser.trimsControls) s.data)) &&
          !(convertBackslashes (trimBoth (isWs parser.trimsControls) s.data)).contains '#') =
          true then
        Except.ok ⟨convertBackslashes (trimBoth (isWs parser.trimsControls) s.data)⟩
      else if ((convertBackslashes (trimBoth (isWs parser.trimsControls) s.data)).head? ==
            some '/' &&
          !hostPattern (convertBackslashes (trimBoth (isWs parser.trimsControls) s.data))) =
          true then
        Except.ok
          ⟨autoEscapeStr (convertBackslashes (trimBoth (isWs parser.trimsControls) s.data))⟩
      else parser.other ⟨convertBackslashes (trimBoth (isWs parser.trimsControls) s.data)⟩ := by
  unfold format
  simp only [formatUrl_parsePath]
  rfl

/-- On a path that starts with one slash and holds no backslash and no doubled slash, the
result is again such a path: the parser stays in its host-less branches. -/
theorem format_root (parser : LegacyParser) (s : String) (r : List Char)
    (hs : s.data = '/' :: r) (hnd : NoDoubleSlash ('/' :: r)) (hb : backslash ∉ r) :
    ∃ q, format parser s = Except.ok ⟨'/' :: q⟩ ∧ NoDoubleSlash ('/' :: q) := by
  obtain ⟨t, ht, hpre⟩ := trimBoth_root (isWs_slash parser.trimsControls) r
  have hbt : backslash ∉ ('/' :: t) := by
    intro hmem
    simp only [List.mem_cons] at hmem
    rcases hmem with e | e
    · exact absurd e (by decide)
    · exact hb (hpre.subset e)
  have hndt : NoDoubleSlash ('/' :: t) := by
    refine List.Chain'.prefix hnd ?_
    obtain ⟨u, hu⟩ := hpre
    exact ⟨u, by rw [← hu]; rfl⟩
  have hrest : convertBackslashes (trimBoth (isWs parser.trimsControls) s.data) = '/' :: t := by
    rw [hs, ht, convertBackslashes_eq_self hbt]
  rw [format_eq, hrest]
  split
  · exact ⟨t, rfl, hndt⟩
  · rw [if_pos (by simp [hostPattern_root hndt])]
    refine ⟨t.flatMap autoEscapeChar, ?_, ?_⟩
    · rw [autoEscapeStr, flatMap_cons_slash autoEscapeChar_slashFaithful]
    · rw [← flatMap_cons_slash autoEscapeChar_slashFaithful]
      exact flatMap_noDoubleSlash autoEscapeChar_slashFaithful hndt

theorem mem_convertBackslashes {l : List Char} {c : Char} (h : c ∈ convertBackslashes l) :
    c = '/' ∨ c ∈ l := by
  induction l with
  | nil => simp [convertBackslashes] at h
  | cons a l ih =>
    unfold convertBackslashes at h
    split at h
    · exact Or.inr h
    · split at h
      · simp only [List.mem_cons] at h
        rcases h with e | e
        · exact Or.inl e
        · rcases ih e with e' | e'
          · exact Or.inl e'
          · exact Or.inr (List.mem_cons_of_mem _ e')
      · simp only [List.mem_cons] at h
        rcases h with e | e
        · exact Or.inr (e ▸ List.mem_cons_self _ _)
        · rcases ih e with e' | e'
          · exact Or.inl e'
          · exact Or.inr (List.mem_cons_of_mem _ e')

theorem convertBackslashes_root (t : List Char) :
    convertBackslashes ('/' :: t) = '/' :: convertBackslashes t := by
  rw [convertBackslashes, if_neg (by decide), if_neg (by decide)]

theorem hostPattern_of_no_at {l : List Char} (h : '@' ∉ l) : hostPattern l = false := by
  match l, h with
  | [], _ => rfl
  | [_], _ => rfl
  | a :: b :: r, h =>
    have hr : '@' ∉ r := fun e => h (List.mem_cons_of_mem _ (List.mem_cons_of_mem _ e))
    have hdrop : ∀ n, (match r.drop n with
        | x :: y :: _ => x == '@' && !(y == '@' || y == '/')
        | _ => false) = false := by
      intro n
      split
      · rename_i x y rest hxy
        have hx : x ∈ r := List.mem_of_mem_drop (by rw [hxy]; exact List.mem_cons_self _ _)
        have hne : x ≠ '@' := fun e => hr (e ▸ hx)
        simp [hne]
      · rfl
    simp only [hostPattern, hdrop, Bool.and_false]

/-- On a path that starts with one slash and holds no `@`, the parser stays in its host-less
branches and returns. -/
theorem format_of_no_at (parser : LegacyParser) (s : String) (r : List Char)
    (hs : s.data = '/' :: r) (hat : '@' ∉ r) : ∃ q, format parser s = Except.ok q := by
  obtain ⟨t, ht, hpre⟩ := trimBoth_root (isWs_slash parser.trimsControls) r
  have hrest : convertBackslashes (trimBoth (isWs parser.trimsControls) s.data) =
      '/' :: convertBackslashes t := by
    rw [hs, ht, convertBackslashes_root]
  have hno : '@' ∉ '/' :: convertBackslashes t := by
    intro hmem
    simp only [List.mem_cons] at hmem
    rcases hmem with e | e
    · exact absurd e (by decide)
    · rcases mem_convertBackslashes e with e' | e'
      · exact absurd e' (by decide)
      · exact hat (hpre.subset e')
  rw [format_eq, hrest]
  split
  · exact ⟨_, rfl⟩
  · rw [if_pos (by simp [hostPattern_of_no_at hno])]
    exact ⟨_, rfl⟩

/-- On a path that starts with one slash, not followed by a slash or a backslash, the parser
stays in its host-less branches and returns. -/
theorem format_of_head (parser : LegacyParser) (s : String) (r : List Char)
    (hs : s.data = '/' :: r) (hnd : NoDoubleSlash ('/' :: r))
    (hhead : r.head? ≠ some backslash) : ∃ q, format parser s = Except.ok q := by
  obtain ⟨t, ht, hpre⟩ := trimBoth_root (isWs_slash parser.trimsControls) r
  have hrest : convertBackslashes (trimBoth (isWs parser.trimsControls) s.data) =
      '/' :: convertBackslashes t := by
    rw [hs, ht, convertBackslashes_root]
  have hhost : hostPattern ('/' :: convertBackslashes t) = false := by
    cases t with
    | nil => rfl
    | cons c t2 =>
      obtain ⟨u, hu⟩ := hpre
      have hc1 : c ≠ backslash := by
        intro e
        apply hhead
        rw [← hu, e]
        rfl
      have hc2 : c ≠ '/' := by
        intro e
        rw [← hu, e] at hnd
        exact (List.chain'_cons.mp hnd).1 ⟨rfl, rfl⟩
      obtain ⟨w, hw⟩ : ∃ w, convertBackslashes (c :: t2) = c :: w := by
        rw [convertBackslashes]
        split_ifs
        · exact ⟨_, rfl⟩
        · exact ⟨_, rfl⟩
      rw [hw]
      simp [hostPattern, hc2]
  rw [format_eq, hrest]
  split
  · exact ⟨_, rfl⟩
  · rw [if_pos (by simp [hhost])]
    exact ⟨_, rfl⟩

/-- A joined path that both releases trim alike, that `simplePathPattern` rejects and in which
`hostPattern` finds no authority has its `autoEscape` characters escaped, whatever the
parser. -/
theorem format_of_not_simple (parser : LegacyParser) (s : String)
    (htrim : trimBoth (isWs true) s.data = trimBoth (isWs false) s.data)
    (hsimple : simplePathPattern (convertBackslashes (trimBoth (isWs false) s.data)) = false)
    (hslow : ((convertBackslashes (trimBoth (isWs false) s.data)).head? == some '/' &&
      !hostPattern (convertBackslashes (trimBoth (isWs false) s.data))) = true) :
    format parser s =
      Except.ok ⟨autoEscapeStr (convertBackslashes (trimBoth (isWs false) s.data))⟩ := by
  have hb : trimBoth (isWs parser.trimsControls) s.data = trimBoth (isWs false) s.data := by
    cases parser.trimsControls
    · rfl
    · exact htrim
  rw [format_eq, hb, hsimple, if_neg (by simp), if_pos hslow]

end url

/-! ## Facts about `proc` -/

theorem proc_eq (parser : LegacyParser) (ue : UrlElement) (fp tag : String) :
    proc parser ue fp tag =
      (url.format parser (path.join ["/", ue.pathToRepo, tag, ue.branch, fp])).map
        (fun urlPath => ue.protocol ++ "://" ++ ue.host ++ encodeURI urlPath) := by
  unfold proc
  cases url.format parser (path.join ["/", ue.pathToRepo, tag, ue.branch, fp]) <;> rfl

theorem proc_root (parser : LegacyParser) (ue : UrlElement) (fp tag : String)
    (hrepo : backslash ∉ ue.pathToRepo.data) (hbranch : backslash ∉ ue.branch.data)
    (hfile : backslash ∉ fp.data) (htag : backslash ∉ tag.data) :
    ∃ q, proc parser ue fp tag = Except.ok (ue.protocol ++ "://" ++ ue.host ++ ⟨'/' :: q⟩) ∧
      NoDoubleSlash ('/' :: q) := by
  obtain ⟨r, hr, hnd, hmem⟩ := path.join_root [ue.pathToRepo, tag, ue.branch, fp]
  have hb : backslash ∉ r := by
    intro hin
    rcases hmem _ hin with e | ⟨a, ha, hca⟩
    · exact absurd e (by decide)
    · simp only [List.mem_cons, List.mem_singleton, List.not_mem_nil, or_false] at ha
      rcases ha with rfl | rfl | rfl | rfl
      · exact hrepo hca
      · exact htag hca
      · exact hbranch hca
      · exact hfile hca
  obtain ⟨q, hq, hqnd⟩ := url.format_root parser _ r hr hnd hb
  refine ⟨q.flatMap encodeChar, ?_, ?_⟩
  · rw [proc_eq, hq]
    show Except.ok _ = Except.ok _
    congr 2
  · rw [← flatMap_cons_slash encodeChar_slashFaithful]
    exact flatMap_noDoubleSlash encodeChar_slashFaithful hqnd

theorem bitbucket_returns (parser : LegacyParser) (ue : UrlElement)
    (fp : String) (hrepo : backslash ∉ ue.pathToRepo.data)
    (hbranch : backslash ∉ ue.branch.data) (hfile : backslash ∉ fp.data) :
    ∃ u, generatePath.bitbucket parser ue fp = Except.ok u := by
  obtain ⟨q1, h1, _⟩ := proc_root parser ue fp "src" hrepo hbranch hfile (by decide)
  obtain ⟨q2, h2, _⟩ := proc_root parser ue fp "raw" hrepo hbranch hfile (by decide)
  obtain ⟨q3, h3, _⟩ := proc_root parser ue fp "annotate" hrepo hbranch hfile (by decide)
  obtain ⟨q4, h4, _⟩ := proc_root parser ue fp "history-node" hrepo hbranch hfile (by decide)
  unfold generatePath.bitbucket
  rw [h1, h2, h3, h4]
  exact ⟨_, rfl⟩

theorem proc_of_not_simple (parser parser2 : LegacyParser) (ue : UrlElement)
    (fp tag : String)
    (htrim : trimBoth (url.isWs true)
        (path.join ["/", ue.pathToRepo, tag, ue.branch, fp]).data =
      trimBoth (url.isWs false) (path.join ["/", ue.pathToRepo, tag, ue.branch, fp]).data)
    (hsimple : url.simplePathPattern (url.convertBackslashes (trimBoth (url.isWs false)
      (path.join ["/", ue.pathToRepo, tag, ue.branch, fp]).data)) = false)
    (hslow : ((url.convertBackslashes (trimBoth (url.isWs false)
        (path.join ["/", ue.pathToRepo, tag, ue.branch, fp]).data)).head? == some '/' &&
      !url.hostPattern (url.convertBackslashes (trimBoth (url.isWs false)
        (path.join ["/", ue.pathToRepo, tag, ue.branch, fp]).data))) = true) :
    proc parser ue fp tag = proc parser2 ue fp tag := by
  rw [proc_eq, proc_eq, url.format_of_not_simple parser _ htrim hsimple hslow,
    url.format_of_not_simple parser2 _ htrim hsimple hslow]

theorem proc_no_at (parser : LegacyParser) (ue : UrlElement) (fp tag : String)
    (hrepo : '@' ∉ ue.pathToRepo.data) (hbranch : '@' ∉ ue.branch.data)
    (hfile : '@' ∉ fp.data) (htag : '@' ∉ tag.data) :
    ∃ link, proc parser ue fp tag = Except.ok link := by
  obtain ⟨r, hr, _, hmem⟩ := path.join_root [ue.pathToRepo, tag, ue.branch, fp]
  have hat : '@' ∉ r := by
    intro hin
    rcases hmem _ hin with e | ⟨a, ha, hca⟩
    · exact absurd e (by decide)
    · simp only [List.mem_cons, List.mem_singleton, List.not_mem_nil, or_false] at ha
      rcases ha with rfl | rfl | rfl | rfl
      · exact hrepo hca
      · exact htag hca
      · exact hbranch hca
      · exact hfile hca
  obtain ⟨q, hq⟩ := url.format_of_no_at parser _ r hr hat
  rw [proc_eq, hq]
  exact ⟨_, rfl⟩

theorem proc_starts_with_base (parser : LegacyParser) (ue : UrlElement) (fp tag link : String)
    (h : proc parser ue fp tag = Except.ok link) :
    (ue.protocol ++ "://" ++ ue.host).data <+: link.data := by
  rw [proc_eq] at h
  cases hf : url.format parser (path.join ["/", ue.pathToRepo, tag, ue.branch, fp]) with
  | error e =>
    rw [hf] at h
    exact absurd h (by simp [Except.map])
  | ok urlPath =>
    rw [hf] at h
    have hl : link = ue.protocol ++ "://" ++ ue.host ++ encodeURI urlPath :=
      (Except.ok.inj h).symm
    exact ⟨(encodeURI urlPath).data, by rw [hl]; simp only [String.data_append]⟩

theorem github_of_procs (parser : LegacyParser) (ue : UrlElement) (fp : String)
    (h : ∀ tag ∈ ["blob", "raw", "edit", "blame", "commits"],
      ∃ link, proc parser ue fp tag = Except.ok link) :
    ∃ u, generatePath.github parser ue fp = Except.ok u := by
  obtain ⟨q1, h1⟩ := h "blob" (by decide)
  obtain ⟨q2, h2⟩ := h "raw" (by decide)
  obtain ⟨q3, h3⟩ := h "edit" (by decide)
  obtain ⟨q4, h4⟩ := h "blame" (by decide)
  obtain ⟨q5, h5⟩ := h "commits" (by decide)
  unfold generatePath.github
  rw [h1, h2, h3, h4, h5]
  exact ⟨_, rfl⟩

theorem bitbucket_of_procs (parser : LegacyParser) (ue : UrlElement) (fp : String)
    (h : ∀ tag ∈ ["src", "raw", "annotate", "history-node"],
      ∃ link, proc parser ue fp tag = Except.ok link) :
    ∃ u, generatePath.bitbucket parser ue fp = Except.ok u := by
  obtain ⟨q1, h1⟩ := h "src" (by decide)
  obtain ⟨q2, h2⟩ := h "raw" (by decide)
  obtain ⟨q3, h3⟩ := h "annotate" (by decide)
  obtain ⟨q4, h4⟩ := h "history-node" (by decide)
  unfold generatePath.bitbucket
  rw [h1, h2, h3, h4]
  exact ⟨_, rfl⟩

theorem proc_of_head (parser : LegacyParser) (ue : UrlElement) (fp tag : String)
    (h : joinStartsBackslash ue fp tag = false) :
    ∃ link, proc parser ue fp tag = Except.ok link := by
  obtain ⟨r, hr, hnd, _⟩ := path.join_root [ue.pathToRepo, tag, ue.branch, fp]
  have hhead : r.head? ≠ some backslash := by
    unfold joinStartsBackslash at h
    rw [hr] at h
    simpa using h
  obtain ⟨q, hq⟩ := url.format_of_head parser _ r hr hnd hhead
  rw [proc_eq, hq]
  exact ⟨_, rfl⟩

/-- A template of the table returns when `pathToRepo`, `branch` and the file path hold no
backslash, also when they hold no `@`, and also when no joined path starts with a slash and a
backslash. -/
theorem template_returns (parser : LegacyParser) (service : String) (ue : UrlElement)
    (fp : String)
    (h : (backslash ∉ ue.pathToRepo.data ∧ backslash ∉ ue.branch.data ∧ backslash ∉ fp.data) ∨
      ('@' ∉ ue.pathToRepo.data ∧ '@' ∉ ue.branch.data ∧ '@' ∉ fp.data) ∨
      ∀ tag ∈ generatePath.tags, joinStartsBackslash ue fp tag = false) :
    ∃ u, (if service = "bitbucket" then generatePath.bitbucket else generatePath.github)
      parser ue fp = Except.ok u := by
  have htags : ∀ tag ∈ generatePath.tags, backslash ∉ tag.data ∧ '@' ∉ tag.data := by decide
  have hproc : ∀ tag ∈ generatePath.tags, ∃ link, proc parser ue fp tag = Except.ok link := by
    intro tag ht
    rcases h with ⟨h1, h2, h3⟩ | ⟨h1, h2, h3⟩ | h
    · obtain ⟨q, hq, _⟩ := proc_root parser ue fp tag h1 h2 h3 (htags tag ht).1
      exact ⟨_, hq⟩
    · exact proc_no_at parser ue fp tag h1 h2 h3 (htags tag ht).2
    · exact proc_of_head parser ue fp tag (h tag ht)
  by_cases hs : service = "bitbucket"
  · rw [if_pos hs]
    apply bitbucket_of_procs
    intro tag ht
    simp only [List.mem_cons, List.mem_singleton, List.not_mem_nil, or_false] at ht
    rcases ht with rfl | rfl | rfl | rfl <;> exact hproc _ (by decide)
  · rw [if_neg hs]
    apply github_of_procs
    intro tag ht
    simp only [List.mem_cons, List.mem_singleton, List.not_mem_nil, or_false] at ht
    rcases ht with rfl | rfl | rfl | rfl | rfl <;> exact hproc _ (by decide)

/-- Every URL a template of the table returns starts with the base URL. -/
theorem template_startsWith (parser : LegacyParser) (service : String) (ue : UrlElement)
    (fp : String) (u : UrlSet)
    (h : (if service = "bitbucket" then generatePath.bitbucket else generatePath.github)
      parser ue fp = Except.ok u) :
    u.StartsWith (ue.protocol ++ "://" ++ ue.host) := by
  by_cases hs : service = "bitbucket"
  · rw [if_pos hs] at h
    unfold generatePath.bitbucket at h
    cases h1 : proc parser ue fp "src" with
    | error e => simp [h1, bind, Except.bind] at h
    | ok v =>
      cases h2 : proc parser ue fp "raw" with
      | error e => simp [h1, h2, bind, Except.bind] at h
      | ok r =>
        cases h3 : proc parser ue fp "annotate" with
        | error e => simp [h1, h2, h3, bind, Except.bind] at h
        | ok b =>
          cases h4 : proc parser ue fp "history-node" with
          | error e => simp [h1, h2, h3, h4, bind, Except.bind] at h
          | ok hi =>
            simp only [h1, h2, h3, h4, bind, Except.bind, pure, Except.pure,
              Except.ok.injEq] at h
            subst h
            refine ⟨proc_starts_with_base parser ue fp _ _ h1,
              proc_starts_with_base parser ue fp _ _ h2, ?_,
              proc_starts_with_base parser ue fp _ _ h3,
              proc_starts_with_base parser ue fp _ _ h4⟩
            obtain ⟨t, ht⟩ := proc_starts_with_base parser ue fp _ _ h1
            refine ⟨t ++ "?mode=edit&spa=0".data, ?_⟩
            show _ = (v ++ "?mode=edit&spa=0").data
            simp only [String.data_append] at ht ⊢
            rw [← ht]
            simp only [List.append_assoc]
  · rw [if_neg hs] at h
    unfold generatePath.github at h
    cases h1 : proc parser ue fp "blob" with
    | error e => simp [h1, bind, Except.bind] at h
    | ok v =>
      cases h2 : proc parser ue fp "raw" with
      | error e => simp [h1, h2, bind, Except.bind] at h
      | ok r =>
        cases h3 : proc parser ue fp "edit" with
        | error e => simp [h1, h2, h3, bind, Except.bind] at h
        | ok ed =>
          cases h4 : proc parser ue fp "blame" with
          | error e => simp [h1, h2, h3, h4, bind, Except.bind] at h
          | ok b =>
            cases h5 : proc parser ue fp "commits" with
            | error e => simp [h1, h2, h3, h4, h5, bind, Except.bind] at h
            | ok hi =>
              simp only [h1, h2, h3, h4, h5, bind, Except.bind, pure, Except.pure,
                Except.ok.injEq] at h
              subst h
              exact ⟨proc_starts_with_base parser ue fp _ _ h1,
                proc_starts_with_base parser ue fp _ _ h2,
                proc_starts_with_base parser ue fp _ _ h3,
                proc_starts_with_base parser ue fp _ _ h4,
                proc_starts_with_base parser ue fp _ _ h5⟩

/-! ## Where a URL has `//` -/

theorem doubleSlashAt_append_left {P : List Char} (hP : ∀ c ∈ P, c ≠ '/') (R : List Char)
    (i : Nat) : doubleSlashAt (P ++ R) i ↔ P.length ≤ i ∧ doubleSlashAt R (i - P.length) := by
  induction P generalizing i with
  | nil => simp
  | cons p P ih =>
    have hp : p ≠ '/' := hP p (List.mem_cons_self _ _)
    cases i with
    | zero =>
      simp [doubleSlashAt, hp]
    | succ j =>
      have := ih (fun c hc => hP c (List.mem_cons_of_mem _ hc)) j
      simp only [doubleSlashAt, List.cons_append, List.getElem?_cons_succ, List.length_cons,
        Nat.add_le_add_iff_right, Nat.add_sub_add_right] at this ⊢
      exact this

theorem not_doubleSlashAt {R : List Char} (h : NoDoubleSlash R) (i : Nat) :
    ¬ doubleSlashAt R i := by
  induction R generalizing i with
  | nil => simp [doubleSlashAt]
  | cons a R ih =>
    cases i with
    | zero =>
      intro hd
      simp only [doubleSlashAt, List.getElem?_cons_zero, Option.some.injEq, zero_add,
        List.getElem?_cons_succ] at hd
      cases R with
      | nil => simp at hd
      | cons b R =>
        simp only [List.getElem?_cons_zero, Option.some.injEq] at hd
        exact (List.chain'_cons.mp h).1 hd
    | succ j =>
      intro hd
      simp only [doubleSlashAt, List.getElem?_cons_succ] at hd
      exact ih (List.Chain'.tail h) j hd

theorem onlySchemeSlashes_of_parts (protocol host : String) (q : List Char)
    (hproto : ∀ c ∈ protocol.data, c ≠ '/') (hne : host.data ≠ [])
    (hhost : ∀ c ∈ host.data, c ≠ '/') (hq : NoDoubleSlash ('/' :: q)) :
    OnlySchemeSlashes protocol (protocol ++ "://" ++ host ++ ⟨'/' :: q⟩) := by
  intro i
  have hdata : (protocol ++ "://" ++ host ++ (⟨'/' :: q⟩ : String)).data =
      protocol.data ++ (':' :: '/' :: '/' :: (host.data ++ '/' :: q)) := by
    simp [String.data_append]
  have hR : NoDoubleSlash (host.data ++ '/' :: q) := by
    refine List.Chain'.append (path.noDoubleSlash_of_not_mem hhost) hq ?_
    intro x hx y _ hxy
    exact hhost x (List.mem_of_mem_getLast? hx) hxy.1
  obtain ⟨h0, hrest, hh⟩ : ∃ h0 hrest, host.data = h0 :: hrest := by
    cases hd : host.data with
    | nil => exact absurd hd hne
    | cons a b => exact ⟨a, b, rfl⟩
  have h0ne : h0 ≠ '/' := hhost h0 (by rw [hh]; exact List.mem_cons_self _ _)
  rw [hdata, doubleSlashAt_append_left hproto]
  constructor
  · rintro ⟨hle, hd⟩
    obtain ⟨k, hk⟩ : ∃ k, i - protocol.data.length = k := ⟨_, rfl⟩
    rw [hk] at hd
    match k, hk, hd with
    | 0, _, hd => simp [doubleSlashAt] at hd
    | 1, hk, _ => omega
    | 2, _, hd =>
      simp [doubleSlashAt, hh] at hd
      exact absurd hd h0ne
    | k + 3, _, hd =>
      have := not_doubleSlashAt hR k
      simp only [doubleSlashAt, List.getElem?_cons_succ] at hd this
      exact absurd hd this
  · intro hi
    refine ⟨by omega, ?_⟩
    have : i - protocol.data.length = 1 := by omega
    rw [this]
    simp [doubleSlashAt]

/-! ## The claims about the templates -/

/-- C1 on the code: for the tracked file `docs/my file.md`, with every release of the legacy
parser, the view URL of the github template, and identically of the gitlab template, ends in
`my%2520file.md`: `url.format` already escapes the space and `encodeURI` then escapes its
percent sign again.  The claim's URL, the scheme, `://`, the host and the percent-encoded joined
path, ends in `my%20file.md`. -/
theorem github_view_double_encodes_space (parser : LegacyParser) :
    (generatePath.github parser sampleRemote "docs/my file.md").map UrlSet.view =
        Except.ok "https://github.com/acme/site/blob/main/docs/my%2520file.md" ∧
      (generatePath.gitlab parser sampleRemote "docs/my file.md").map UrlSet.view =
        Except.ok "https://github.com/acme/site/blob/main/docs/my%2520file.md" ∧
      sampleRemote.protocol ++ "://" ++ sampleRemote.host ++
          encodeURI (path.join ["/", sampleRemote.pathToRepo, "blob", sampleRemote.branch,
            "docs/my file.md"]) =
        "https://github.com/acme/site/blob/main/docs/my%20file.md" := by
  have h1 := proc_of_not_simple parser rejecting sampleRemote "docs/my file.md" "blob"
    (by decide) (by decide) (by decide)
  have h2 := proc_of_not_simple parser rejecting sampleRemote "docs/my file.md" "raw"
    (by decide) (by decide) (by decide)
  have h3 := proc_of_not_simple parser rejecting sampleRemote "docs/my file.md" "edit"
    (by decide) (by decide) (by decide)
  have h4 := proc_of_not_simple parser rejecting sampleRemote "docs/my file.md" "blame"
    (by decide) (by decide) (by decide)
  have h5 := proc_of_not_simple parser rejecting sampleRemote "docs/my file.md" "commits"
    (by decide) (by decide) (by decide)
  have hg : generatePath.github parser sampleRemote "docs/my file.md" =
      generatePath.github rejecting sampleRemote "docs/my file.md" := by
    unfold generatePath.github
    rw [h1, h2, h3, h4, h5]
  refine ⟨?_, ?_, by decide⟩
  · rw [hg]
    decide
  · unfold generatePath.gitlab
    rw [hg]
    decide

/-- C2: whenever the bitbucket template returns a UrlSet, its view, raw, blame and history
fields are what `proc` builds with the tags src, raw, annotate and history-node, its edit field
is the view field followed by the literal `?mode=edit&spa=0`, and so ends with that literal,
appended after the encoding; and the template does return a UrlSet when `pathToRepo`,
`branch` and the file path hold no backslash. -/
theorem bitbucket_urls (parser : LegacyParser) (ue : UrlElement)
    (fp : String) :
    (∀ u, generatePath.bitbucket parser ue fp = Except.ok u →
        proc parser ue fp "src" = Except.ok u.view ∧
        proc parser ue fp "raw" = Except.ok u.raw ∧
        proc parser ue fp "annotate" = Except.ok u.blame ∧
        proc parser ue fp "history-node" = Except.ok u.history ∧
        u.edit = u.view ++ "?mode=edit&spa=0" ∧
        "?mode=edit&spa=0".data <:+ u.edit.data) ∧
      (backslash ∉ ue.pathToRepo.data → backslash ∉ ue.branch.data → backslash ∉ fp.data →
        ∃ u, generatePath.bitbucket parser ue fp = Except.ok u) := by
  constructor
  · intro u hu
    unfold generatePath.bitbucket at hu
    cases h1 : proc parser ue fp "src" with
    | error e => simp [h1, bind, Except.bind] at hu
    | ok v =>
      cases h2 : proc parser ue fp "raw" with
      | error e => simp [h1, h2, bind, Except.bind] at hu
      | ok r =>
        cases h3 : proc parser ue fp "annotate" with
        | error e => simp [h1, h2, h3, bind, Except.bind] at hu
        | ok b =>
          cases h4 : proc parser ue fp "history-node" with
          | error e => simp [h1, h2, h3, h4, bind, Except.bind] at hu
          | ok h =>
            simp only [h1, h2, h3, h4, bind, Except.bind, pure, Except.pure,
              Except.ok.injEq] at hu
            subst hu
            refine ⟨rfl, rfl, rfl, rfl, rfl, ?_⟩
            exact ⟨v.data, by simp [String.data_append]⟩
  · intro hrepo hbranch hfile
    exact bitbucket_returns parser ue fp hrepo hbranch hfile

/-- C2 at `https`, `github.com`, `acme/site`, `main`, `docs/intro.md`: the bitbucket template
returns a UrlSet, and its edit URL is the view URL with `?mode=edit&spa=0` at the end. -/
theorem bitbucket_urls_witness :
    ∃ u, generatePath.bitbucket rejecting sampleRemote "docs/intro.md" = Except.ok u ∧
      u.view = "https://github.com/acme/site/src/main/docs/intro.md" ∧
      u.edit = "https://github.com/acme/site/src/main/docs/intro.md?mode=edit&spa=0" := by
  obtain ⟨hret, htotal⟩ := bitbucket_urls rejecting sampleRemote "docs/intro.md"
  obtain ⟨u, hu⟩ := htotal (by decide) (by decide) (by decide)
  obtain ⟨hview, _, _, _, hedit, _⟩ := hret u hu
  have hv : u.view = "https://github.com/acme/site/src/main/docs/intro.md" := by
    have h : proc rejecting sampleRemote "docs/intro.md" "src" =
        Except.ok "https://github.com/acme/site/src/main/docs/intro.md" := by decide
    rw [h] at hview
    exact (Except.ok.inj hview).symm
  exact ⟨u, hu, hv, by rw [hedit, hv]; decide⟩

/-- C9, as stated, fails: a file path with two neighbouring backslashes, which `url.format`
turns into slashes, puts a second `//` into the view URL; and an empty host leaves `///` after
the scheme. -/
theorem view_double_slash_counterexample :
    ((generatePath.github rejecting sampleRemote backslashFile).map UrlSet.view =
        Except.ok "https://github.com/acme/site/blob/main/a//b" ∧
      ¬ OnlySchemeSlashes sampleRemote.protocol
        "https://github.com/acme/site/blob/main/a//b") ∧
    ((generatePath.bitbucket rejecting { sampleRemote with host := "" } "docs/intro.md").map
        UrlSet.raw = Except.ok "https:///acme/site/raw/main/docs/intro.md" ∧
      ¬ OnlySchemeSlashes sampleRemote.protocol "https:///acme/site/raw/main/docs/intro.md") := by
  refine ⟨⟨by decide, ?_⟩, ⟨by decide, ?_⟩⟩
  · intro h
    have h40 := (h 40).mp (by decide)
    exact absurd h40 (by decide)
  · intro h
    have h7 := (h 7).mp (by decide)
    exact absurd h7 (by decide)

/-- C9, amended: when the scheme holds no slash, the host is non-empty and holds no slash, and
`pathToRepo`, `branch` and the file path hold no backslash (leading, trailing and repeated
slashes are allowed), the github, gitlab and bitbucket templates each return a UrlSet whose
view and raw URLs have `//` at one place only, right after the scheme and its colon. -/
theorem templates_only_scheme_slashes (parser : LegacyParser)
    (ue : UrlElement) (fp : String) (hproto : ∀ c ∈ ue.protocol.data, c ≠ '/')
    (hne : ue.host.data ≠ []) (hhost : ∀ c ∈ ue.host.data, c ≠ '/')
    (hrepo : backslash ∉ ue.pathToRepo.data) (hbranch : backslash ∉ ue.branch.data)
    (hfile : backslash ∉ fp.data) :
    ∃ g b, generatePath.github parser ue fp = Except.ok g ∧
      generatePath.gitlab parser ue fp = Except.ok g ∧
      generatePath.bitbucket parser ue fp = Except.ok b ∧
      OnlySchemeSlashes ue.protocol g.view ∧ OnlySchemeSlashes ue.protocol g.raw ∧
      OnlySchemeSlashes ue.protocol b.view ∧ OnlySchemeSlashes ue.protocol b.raw := by
  obtain ⟨q1, h1, n1⟩ := proc_root parser ue fp "blob" hrepo hbranch hfile (by decide)
  obtain ⟨q2, h2, n2⟩ := proc_root parser ue fp "raw" hrepo hbranch hfile (by decide)
  obtain ⟨q3, h3, _⟩ := proc_root parser ue fp "edit" hrepo hbranch hfile (by decide)
  obtain ⟨q4, h4, _⟩ := proc_root parser ue fp "blame" hrepo hbranch hfile (by decide)
  obtain ⟨q5, h5, _⟩ := proc_root parser ue fp "commits" hrepo hbranch hfile (by decide)
  obtain ⟨q6, h6, n6⟩ := proc_root parser ue fp "src" hrepo hbranch hfile (by decide)
  obtain ⟨q7, h7, _⟩ := proc_root parser ue fp "annotate" hrepo hbranch hfile (by decide)
  obtain ⟨q8, h8, _⟩ := proc_root parser ue fp "history-node" hrepo hbranch hfile (by decide)
  have hg : generatePath.github parser ue fp = Except.ok
      { view := ue.protocol ++ "://" ++ ue.host ++ ⟨'/' :: q1⟩
        raw := ue.protocol ++ "://" ++ ue.host ++ ⟨'/' :: q2⟩
        edit := ue.protocol ++ "://" ++ ue.host ++ ⟨'/' :: q3⟩
        blame := ue.protocol ++ "://" ++ ue.host ++ ⟨'/' :: q4⟩
        history := ue.protocol ++ "://" ++ ue.host ++ ⟨'/' :: q5⟩ } := by
    unfold generatePath.github
    rw [h1, h2, h3, h4, h5]
    rfl
  have hb : generatePath.bitbucket parser ue fp = Except.ok
      { view := ue.protocol ++ "://" ++ ue.host ++ ⟨'/' :: q6⟩
        raw := ue.protocol ++ "://" ++ ue.host ++ ⟨'/' :: q2⟩
        edit := ue.protocol ++ "://" ++ ue.host ++ ⟨'/' :: q6⟩ ++ "?mode=edit&spa=0"
        blame := ue.protocol ++ "://" ++ ue.host ++ ⟨'/' :: q7⟩
        history := ue.protocol ++ "://" ++ ue.host ++ ⟨'/' :: q8⟩ } := by
    unfold generatePath.bitbucket
    rw [h6, h2, h7, h8]
    rfl
  exact ⟨_, _, hg, hg, hb,
    onlySchemeSlashes_of_parts ue.protocol ue.host q1 hproto hne hhost n1,
    onlySchemeSlashes_of_parts ue.protocol ue.host q2 hproto hne hhost n2,
    onlySchemeSlashes_of_parts ue.protocol ue.host q6 hproto hne hhost n6,
    onlySchemeSlashes_of_parts ue.protocol ue.host q2 hproto hne hhost n2⟩

/-- The amended C9 at `https`, `github.com`, a repository path and a file path with leading,
trailing and repeated slashes. -/
theorem templates_only_scheme_slashes_witness :
    ∃ g b, generatePath.github rejecting { sampleRemote with pathToRepo := "//acme//site/" }
          "/docs///intro.md/" = Except.ok g ∧
      generatePath.gitlab rejecting { sampleRemote with pathToRepo := "//acme//site/" }
          "/docs///intro.md/" = Except.ok g ∧
      generatePath.bitbucket rejecting { sampleRemote with pathToRepo := "//acme//site/" }
          "/docs///intro.md/" = Except.ok b ∧
      OnlySchemeSlashes "https" g.view ∧ OnlySchemeSlashes "https" g.raw ∧
      OnlySchemeSlashes "https" b.view ∧ OnlySchemeSlashes "https" b.raw :=
  templates_only_scheme_slashes rejecting { sampleRemote with pathToRepo := "//acme//site/" }
    "/docs///intro.md/" (by decide) (by decide) (by decide) (by decide) (by decide) (by decide)

/-! ## The claims about service detection and the host -/

/-- C3: whatever the resource, port and repository path of the parsed remote (the fields the
subdomain heuristic reads), `detectService` answers github when the host it compares,
`urlInfo.source`, is exactly `github.com`, gitlab when it is `gitlab.com`, and bitbucket when
it is `bitbucket.org`. -/
theorem detectService_known_hosts (resource : String) (port : Option String) (full_name : String) :
    detectService (UrlInfo.mk "github.com" resource port full_name) = "github" ∧
      detectService (UrlInfo.mk "gitlab.com" resource port full_name) = "gitlab" ∧
      detectService (UrlInfo.mk "bitbucket.org" resource port full_name) = "bitbucket" := by
  refine ⟨?_, ?_, ?_⟩ <;> simp [detectService]

/-- C4 on the code: for the host `constructor.example.org` the detected service is
`constructor`, a property every object inherits and not a template, and generating URLs with
it hands back the call's argument instead of a UrlSet; the two hosts the claim names both
give gitlab. -/
theorem detectService_inherited_label :
    detectService constructorInfo = "constructor" ∧
      "constructor" ∉ generatePath.ownKeys ∧
      (getUrlGenerator rejecting (sampleEnv constructorInfo) (some "git") none none none).bind
          (fun genUrl => genUrl "/repo/docs/intro.md") =
        Except.ok (JsValue.callArgument
          (UrlElement.mk "https" "constructor.example.org" "acme/site" "main")
          "docs/intro.md") ∧
      detectService (UrlInfo.mk "example.org" "gitlab.example.org" none "acme/site") =
        "gitlab" ∧
      detectService
          (UrlInfo.mk "totally-custom.internal" "totally-custom.internal" none "acme/site") =
        "gitlab" := by
  decide

/-- C10, as stated, fails: with https and the port 443 the host of the base URL is
`example.org:443`, where the claim leaves the default port out; the view URL carries it. -/
theorem host_keeps_default_port :
    hostOf port443Info = "example.org:443" ∧
      hostPerSpec "https" port443Info = "example.org" ∧
      (getUrlGenerator rejecting (sampleEnv port443Info) (some "git") (some "gitlab") none
          (some true)).bind (fun genUrl => genUrl "/repo/docs/intro.md") =
        Except.ok (JsValue.urlSet
          (UrlSet.mk "https://example.org:443/acme/site/blob/main/docs/intro.md"
            "https://example.org:443/acme/site/raw/main/docs/intro.md"
            "https://example.org:443/acme/site/edit/main/docs/intro.md"
            "https://example.org:443/acme/site/blame/main/docs/intro.md"
            "https://example.org:443/acme/site/commits/main/docs/intro.md")) := by
  decide

/-! ## The claims about the per-file resolver -/

theorem truthy_some (s : String) : truthy (some s) = true ↔ s ≠ "" := by
  simp [truthy]

theorem genUrl_of_output (parser : LegacyParser) (env : Env)
    (service : String) (ue : UrlElement) (absPath out : String)
    (hout : env.gitLsTree absPath = some out) :
    genUrl parser env service ue absPath =
      if jsTrim out = "" then Except.ok JsValue.null
      else generatePath.call parser service ue (jsTrim out) := by
  unfold genUrl getRepoRelFilePath
  rw [hout]
  by_cases h : jsTrim out = ""
  · have ht : truthy (some (jsTrim out)) = false := by simp [truthy, h]
    simp only [ht, h, if_true]
    rfl
  · have ht : truthy (some (jsTrim out)) = true := (truthy_some _).mpr h
    simp only [ht, h, if_false, if_true]
    show (if truthy (some (jsTrim out)) = true then _ else _) = _
    rw [if_pos ht]

theorem call_ownKey (parser : LegacyParser) (service : String)
    (ue : UrlElement) (fp : String) (hservice : service ∈ generatePath.ownKeys) :
    generatePath.call parser service ue fp =
      ((if service = "bitbucket" then generatePath.bitbucket else generatePath.github)
        parser ue fp).map JsValue.urlSet := by
  simp only [generatePath.ownKeys, List.mem_cons, List.mem_singleton, List.not_mem_nil,
    or_false] at hservice
  rcases hservice with rfl | rfl | rfl <;> rfl

theorem call_unknown (parser : LegacyParser) (service : String)
    (ue : UrlElement) (fp : String) (hservice : generatePath.has service = false) :
    generatePath.call parser service ue fp = Except.error JsError.typeError := by
  simp only [generatePath.has, generatePath.ownKeys, generatePath.inheritedKeys,
    List.contains_cons, List.contains_nil, Bool.or_false, Bool.or_eq_false_iff,
    beq_eq_false_iff_ne, ne_eq] at hservice
  obtain ⟨⟨h1, h2, h3⟩, i1, i2, i3, i4, i5, i6, i7, i8, i9, i10, i11, i12⟩ := hservice
  unfold generatePath.call
  simp only [h1, h2, h3, i1, i4, i5, i6, i7, i8, i9, i10, i12, if_false, or_self]
  rfl

theorem getUrlGenerator_git (parser : LegacyParser) (env : Env)
    (service remote : Option String) (https : Option Bool) (raw head : String)
    (info : UrlInfo) (hraw : env.gitConfigRemoteUrl (remote.getD "origin") = Except.ok raw)
    (hparse : env.gitUrlParse (jsTrim raw) = Except.ok info)
    (hhead : env.gitSymbolicRef = Except.ok head) :
    getUrlGenerator parser env (some "git") service remote https =
      Except.ok (genUrl parser env
        (if truthy service then service.getD "" else detectService info)
        (UrlElement.mk (if https.getD true then "https" else "http") (hostOf info)
          info.full_name (jsTrim head))) := by
  unfold getUrlGenerator
  simp only [if_true, hraw, hhead, Except.map, bind, Except.bind, hparse]
  rfl

theorem getUrlGenerator_explicit (parser : LegacyParser) (env : Env)
    (service : String) (remote : Option String) (https : Option Bool) (raw head : String)
    (info : UrlInfo) (hne : service ≠ "")
    (hraw : env.gitConfigRemoteUrl (remote.getD "origin") = Except.ok raw)
    (hparse : env.gitUrlParse (jsTrim raw) = Except.ok info)
    (hhead : env.gitSymbolicRef = Except.ok head) :
    getUrlGenerator parser env (some "git") (some service) remote https =
      Except.ok (genUrl parser env service
        (UrlElement.mk (if https.getD true then "https" else "http") (hostOf info)
          info.full_name (jsTrim head))) := by
  rw [getUrlGenerator_git parser env (some service) remote https raw head info hraw hparse
    hhead, if_pos ((truthy_some service).mpr hne)]
  rfl

theorem proc_base (parser : LegacyParser) (ue : UrlElement) (fp tag link : String)
    (h : proc parser ue fp tag = Except.ok link) :
    ∃ urlPath, url.format parser (path.join ["/", ue.pathToRepo, tag, ue.branch, fp]) =
        Except.ok urlPath ∧
      link = ue.protocol ++ "://" ++ ue.host ++ encodeURI urlPath := by
  rw [proc_eq] at h
  cases hf : url.format parser (path.join ["/", ue.pathToRepo, tag, ue.branch, fp]) with
  | error e =>
    rw [hf] at h
    exact absurd h (by simp [Except.map])
  | ok urlPath =>
    rw [hf] at h
    exact ⟨urlPath, rfl, (Except.ok.inj h).symm⟩

/-- C10, amended: once the git queries answer, the resolver `getUrlGenerator` returns works on
a descriptor whose host is the parsed resource followed by `:` and the port whenever the parsed
port is not `null`, default or not, and the resource alone when it is `null`; and every URL
`proc` builds from that descriptor is the scheme, `://`, that host and the encoded path. -/
theorem host_includes_every_port (parser : LegacyParser) (env : Env)
    (service remote : Option String) (https : Option Bool)
    (raw head source resource full_name : String)
    (hraw : env.gitConfigRemoteUrl (remote.getD "origin") = Except.ok raw)
    (hhead : env.gitSymbolicRef = Except.ok head) :
    (∀ port : String,
        env.gitUrlParse (jsTrim raw) =
            Except.ok (UrlInfo.mk source resource (some port) full_name) →
          getUrlGenerator parser env (some "git") service remote https =
              Except.ok (genUrl parser env
                (if truthy service then service.getD ""
                  else detectService (UrlInfo.mk source resource (some port) full_name))
                (UrlElement.mk (if https.getD true then "https" else "http")
                  (resource ++ ":" ++ port) full_name (jsTrim head))) ∧
            ∀ fp tag link : String,
              proc parser (UrlElement.mk (if https.getD true then "https" else "http")
                  (resource ++ ":" ++ port) full_name (jsTrim head)) fp tag = Except.ok link →
                ∃ urlPath,
                  url.format parser (path.join ["/", full_name, tag, jsTrim head, fp]) =
                      Except.ok urlPath ∧
                    link = (if https.getD true then "https" else "http") ++ "://" ++ resource ++
                      ":" ++ port ++ encodeURI urlPath) ∧
      (env.gitUrlParse (jsTrim raw) = Except.ok (UrlInfo.mk source resource none full_name) →
        getUrlGenerator parser env (some "git") service remote https =
            Except.ok (genUrl parser env
              (if truthy service then service.getD ""
                else detectService (UrlInfo.mk source resource none full_name))
              (UrlElement.mk (if https.getD true then "https" else "http") resource full_name
                (jsTrim head))) ∧
          ∀ fp tag link : String,
            proc parser (UrlElement.mk (if https.getD true then "https" else "http") resource
                full_name (jsTrim head)) fp tag = Except.ok link →
              ∃ urlPath,
                url.format parser (path.join ["/", full_name, tag, jsTrim head, fp]) =
                    Except.ok urlPath ∧
                  link = (if https.getD true then "https" else "http") ++ "://" ++ resource ++
                    encodeURI urlPath) := by
  constructor
  · intro port hparse
    constructor
    · rw [getUrlGenerator_git parser env service remote https raw head _ hraw hparse hhead]
      have hhost : hostOf (UrlInfo.mk source resource (some port) full_name) =
          resource ++ ":" ++ port := by
        show resource ++ (":" ++ port) = resource ++ ":" ++ port
        rw [String.append_assoc]
      rw [hhost]
    · intro fp tag link hurl
      obtain ⟨urlPath, hf, hu⟩ := proc_base parser _ fp tag link hurl
      refine ⟨urlPath, hf, ?_⟩
      rw [hu]
      simp only [String.append_assoc]
  · intro hparse
    constructor
    · rw [getUrlGenerator_git parser env service remote https raw head _ hraw hparse hhead]
      have hhost : hostOf (UrlInfo.mk source resource none full_name) = resource := by
        show resource ++ "" = resource
        rw [String.append_empty]
      rw [hhost]
    · intro fp tag link hurl
      obtain ⟨urlPath, hf, hu⟩ := proc_base parser _ fp tag link hurl
      exact ⟨urlPath, hf, hu⟩

/-- The amended C10 in the sample working copy, for a remote that names the port 443 and for
one that names none: the resolver's descriptor has the host `example.org:443`, respectively
`github.com`, and the view URL of `docs/intro.md` is built on it. -/
theorem host_includes_every_port_witness :
    (getUrlGenerator rejecting (sampleEnv port443Info) (some "git") (some "gitlab") none none =
        Except.ok (genUrl rejecting (sampleEnv port443Info) "gitlab"
          (UrlElement.mk "https" "example.org:443" "acme/site" "main")) ∧
      ∃ urlPath,
        url.format rejecting (path.join ["/", "acme/site", "blob", "main", "docs/intro.md"]) =
            Except.ok urlPath ∧
          "https://example.org:443/acme/site/blob/main/docs/intro.md" =
            "https" ++ "://" ++ "example.org" ++ ":" ++ "443" ++ encodeURI urlPath) ∧
      (getUrlGenerator rejecting (sampleEnv githubInfo) (some "git") (some "gitlab") none none =
          Except.ok (genUrl rejecting (sampleEnv githubInfo) "gitlab"
            (UrlElement.mk "https" "github.com" "acme/site" "main")) ∧
        ∃ urlPath,
          url.format rejecting (path.join ["/", "acme/site", "blob", "main", "docs/intro.md"]) =
              Except.ok urlPath ∧
            "https://github.com/acme/site/blob/main/docs/intro.md" =
              "https" ++ "://" ++ "github.com" ++ encodeURI urlPath) := by
  have hport := (host_includes_every_port rejecting (sampleEnv port443Info) (some "gitlab") none
    none "git@github.com:acme/site.git\n" "main\n" "example.org" "example.org" "acme/site"
    rfl rfl).1 "443" rfl
  have hnone := (host_includes_every_port rejecting (sampleEnv githubInfo) (some "gitlab") none
    none "git@github.com:acme/site.git\n" "main\n" "github.com" "github.com" "acme/site"
    rfl rfl).2 rfl
  exact ⟨⟨hport.1, hport.2 "docs/intro.md" "blob"
      "https://example.org:443/acme/site/blob/main/docs/intro.md" (by decide)⟩,
    ⟨hnone.1, hnone.2 "docs/intro.md" "blob"
      "https://github.com/acme/site/blob/main/docs/intro.md" (by decide)⟩⟩

/-- C5: once the git queries answer, `getUrlGenerator` called with a non-empty `service` option
returns the per-file function bound to that very name, whatever `detectService` would say of
the remote; and with `service` set to `bitbucket`, for every remote and every tracked file the
outcome is the bitbucket template's, applied to the remote's descriptor and the trimmed
repo-relative path. -/
theorem explicit_service_skips_detection (parser : LegacyParser) (env : Env)
    (remote : Option String) (https : Option Bool) (raw head : String) (info : UrlInfo)
    (hraw : env.gitConfigRemoteUrl (remote.getD "origin") = Except.ok raw)
    (hparse : env.gitUrlParse (jsTrim raw) = Except.ok info)
    (hhead : env.gitSymbolicRef = Except.ok head) :
    (∀ service : String, service ≠ "" →
        getUrlGenerator parser env (some "git") (some service) remote https =
          Except.ok (genUrl parser env service
            (UrlElement.mk (if https.getD true then "https" else "http") (hostOf info)
              info.full_name (jsTrim head)))) ∧
      (∀ absPath out : String, env.gitLsTree absPath = some out → jsTrim out ≠ "" →
        (getUrlGenerator parser env (some "git") (some "bitbucket") remote https).bind
            (fun genUrl => genUrl absPath) =
          (generatePath.bitbucket parser
            (UrlElement.mk (if https.getD true then "https" else "http") (hostOf info)
              info.full_name (jsTrim head)) (jsTrim out)).map JsValue.urlSet) := by
  have hgen : ∀ service : String, service ≠ "" →
      getUrlGenerator parser env (some "git") (some service) remote https =
        Except.ok (genUrl parser env service
          (UrlElement.mk (if https.getD true then "https" else "http") (hostOf info)
            info.full_name (jsTrim head))) :=
    fun service hs =>
      getUrlGenerator_explicit parser env service remote https raw head info hs hraw hparse hhead
  refine ⟨hgen, ?_⟩
  intro absPath out hout hne
  rw [hgen "bitbucket" (by decide)]
  show genUrl parser env "bitbucket" _ absPath = _
  rw [genUrl_of_output parser env "bitbucket" _ absPath out hout, if_neg hne]
  rfl

/-- C5 at a remote on `github.com`, where detection answers github: with `service` set to
`bitbucket` the tracked file `docs/intro.md` gets bitbucket's URLs. -/
theorem explicit_service_skips_detection_witness :
    detectService githubInfo = "github" ∧
      (getUrlGenerator rejecting (sampleEnv githubInfo) (some "git") (some "bitbucket") none
          none).bind (fun genUrl => genUrl "/repo/docs/intro.md") =
        Except.ok (JsValue.urlSet
          (UrlSet.mk "https://github.com/acme/site/src/main/docs/intro.md"
            "https://github.com/acme/site/raw/main/docs/intro.md"
            "https://github.com/acme/site/src/main/docs/intro.md?mode=edit&spa=0"
            "https://github.com/acme/site/annotate/main/docs/intro.md"
            "https://github.com/acme/site/history-node/main/docs/intro.md")) := by
  refine ⟨by decide, ?_⟩
  rw [(explicit_service_skips_detection rejecting (sampleEnv githubInfo) none none
    "git@github.com:acme/site.git\n" "main\n" githubInfo rfl rfl rfl).2
    "/repo/docs/intro.md" "docs/intro.md\n" (by decide) (by decide)]
  decide

/-- C6: with a service of the template table and a tracked-path query that answered `out`, the
per-file function returns null exactly when `out` is whitespace throughout, that is, empty
after trimming; an `out` that is not is whitespace, then the path `trim` keeps, then whitespace,
and the outcome is the service's template applied to that path; a value the function returns is
null or a UrlSet, which has all five fields, each starting with the base URL; and the UrlSet is
returned when `pathToRepo`, `branch` and the trimmed path hold no backslash, also when they
hold no `@`, and also when no joined path starts with a slash and a backslash. -/
theorem genUrl_null_iff_untracked (parser : LegacyParser) (env : Env)
    (service : String) (ue : UrlElement) (absPath out : String)
    (hservice : service ∈ generatePath.ownKeys) (hout : env.gitLsTree absPath = some out) :
    (genUrl parser env service ue absPath = Except.ok JsValue.null ↔
        ∀ c ∈ out.data, isJsWhiteSpace c = true) ∧
      ((∃ c ∈ out.data, isJsWhiteSpace c = false) → TrimmedTo out (jsTrim out)) ∧
      (∀ fp, TrimmedTo out fp →
        genUrl parser env service ue absPath =
          ((if service = "bitbucket" then generatePath.bitbucket else generatePath.github)
            parser ue fp).map JsValue.urlSet) ∧
      (∀ value, genUrl parser env service ue absPath = Except.ok value →
        value = JsValue.null ∨
          ∃ u, value = JsValue.urlSet u ∧ u.StartsWith (ue.protocol ++ "://" ++ ue.host)) ∧
      (∀ fp, TrimmedTo out fp →
        (backslash ∉ ue.pathToRepo.data ∧ backslash ∉ ue.branch.data ∧ backslash ∉ fp.data) ∨
          ('@' ∉ ue.pathToRepo.data ∧ '@' ∉ ue.branch.data ∧ '@' ∉ fp.data) ∨
          (∀ tag ∈ generatePath.tags, joinStartsBackslash ue fp tag = false) →
        ∃ u, genUrl parser env service ue absPath = Except.ok (JsValue.urlSet u)) := by
  have hgen := genUrl_of_output parser env service ue absPath out hout
  have hcall := call_ownKey parser service ue (jsTrim out) hservice
  have htracked : ∀ fp, TrimmedTo out fp →
      genUrl parser env service ue absPath =
        ((if service = "bitbucket" then generatePath.bitbucket else generatePath.github)
          parser ue fp).map JsValue.urlSet := by
    intro fp hfp
    obtain ⟨htrim, hne⟩ := jsTrim_of_trimmedTo hfp
    rw [hgen, htrim, if_neg hne, ← htrim, hcall]
  have hvalue : ∀ value, genUrl parser env service ue absPath = Except.ok value →
      value = JsValue.null ∨
        ∃ u, value = JsValue.urlSet u ∧ u.StartsWith (ue.protocol ++ "://" ++ ue.host) := by
    intro value hv
    by_cases hne : jsTrim out = ""
    · rw [hgen, if_pos hne] at hv
      exact Or.inl (Except.ok.inj hv).symm
    · rw [htracked _ (trimmedTo_jsTrim out hne)] at hv
      cases hres : (if service = "bitbucket" then generatePath.bitbucket
          else generatePath.github) parser ue (jsTrim out) with
      | error e =>
        rw [hres] at hv
        exact absurd hv (by simp [Except.map])
      | ok u =>
        rw [hres] at hv
        exact Or.inr ⟨u, (Except.ok.inj hv).symm,
          template_startsWith parser service ue (jsTrim out) u hres⟩
  refine ⟨⟨?_, ?_⟩, ?_, htracked, hvalue, ?_⟩
  · intro hnull
    rw [← jsTrim_eq_empty_iff]
    by_contra hne
    rw [htracked _ (trimmedTo_jsTrim out hne)] at hnull
    cases hres : (if service = "bitbucket" then generatePath.bitbucket
        else generatePath.github) parser ue (jsTrim out) with
    | error e =>
      rw [hres] at hnull
      exact absurd hnull (by simp [Except.map])
    | ok u =>
      rw [hres] at hnull
      exact absurd (Except.ok.inj hnull) (by simp)
  · intro hall
    rw [hgen, if_pos ((jsTrim_eq_empty_iff out).mpr hall)]
  · rintro ⟨c, hc, hws⟩
    apply trimmedTo_jsTrim
    intro he
    have := (jsTrim_eq_empty_iff out).mp he c hc
    rw [hws] at this
    exact absurd this (by decide)
  · intro fp hfp hsafe
    rw [htracked fp hfp]
    obtain ⟨u, hu⟩ := template_returns parser service ue fp hsafe
    exact ⟨u, by rw [hu]; rfl⟩

/-- C6 under the gitlab template: the output `docs/intro.md` and a line feed gives the five
URLs of `docs/intro.md`, as does, with the later parser, that name between whitespace of every
kind; an output of a space and a line feed gives null; and the quoted name of `docs/ä.md`, with
its backslashes, gives a UrlSet. -/
theorem genUrl_null_iff_untracked_witness :
    genUrl rejecting (sampleEnv githubInfo) "gitlab" sampleRemote "/repo/docs/intro.md" =
        Except.ok (JsValue.urlSet
          (UrlSet.mk "https://github.com/acme/site/blob/main/docs/intro.md"
            "https://github.com/acme/site/raw/main/docs/intro.md"
            "https://github.com/acme/site/edit/main/docs/intro.md"
            "https://github.com/acme/site/blame/main/docs/intro.md"
            "https://github.com/acme/site/commits/main/docs/intro.md")) ∧
      genUrl rejectingLater (lsTreeEnv paddedName) "gitlab" sampleRemote
          "/repo/docs/intro.md" =
        Except.ok (JsValue.urlSet
          (UrlSet.mk "https://github.com/acme/site/blob/main/docs/intro.md"
            "https://github.com/acme/site/raw/main/docs/intro.md"
            "https://github.com/acme/site/edit/main/docs/intro.md"
            "https://github.com/acme/site/blame/main/docs/intro.md"
            "https://github.com/acme/site/commits/main/docs/intro.md")) ∧
      genUrl rejecting (lsTreeEnv " \n") "gitlab" sampleRemote "/tmp/scratch.md" =
        Except.ok JsValue.null ∧
      ∃ u, genUrl rejecting (lsTreeEnv quotedName) "gitlab" sampleRemote "/repo/docs/ä.md" =
        Except.ok (JsValue.urlSet u) :=
  ⟨((genUrl_null_iff_untracked rejecting (sampleEnv githubInfo) "gitlab" sampleRemote
      "/repo/docs/intro.md" "docs/intro.md\n" (by decide) (by decide)).2.2.1 "docs/intro.md"
      ⟨[], ['\n'], by decide, by decide, by decide, ⟨'d', by decide, by decide⟩,
        ⟨'d', by decide, by decide⟩⟩).trans (by decide),
    ((genUrl_null_iff_untracked rejectingLater (lsTreeEnv paddedName) "gitlab"
      sampleRemote "/repo/docs/intro.md" paddedName (by decide) rfl).2.2.1
      "docs/intro.md"
      ⟨"\uFEFF\t\x0B\x0C \u00A0\u1680\u2000\u200A\u2028\u2029\u202F\u205F\u3000".data,
        "\r\n".data, by decide, by decide, by decide,
        ⟨'d', by decide, by decide⟩, ⟨'d', by decide, by decide⟩⟩).trans (by decide),
    (genUrl_null_iff_untracked rejecting (lsTreeEnv " \n") "gitlab" sampleRemote
      "/tmp/scratch.md" " \n" (by decide) rfl).1.mpr (by decide),
    (genUrl_null_iff_untracked rejecting (lsTreeEnv quotedName) "gitlab" sampleRemote
      "/repo/docs/ä.md" quotedName (by decide) rfl).2.2.2.2
      (String.mk (quotedName.data.dropLast))
      ⟨[], [Char.ofNat 10], by decide, by decide, by decide, ⟨'"', by decide, by decide⟩,
        ⟨'"', by decide, by decide⟩⟩
      (Or.inr (Or.inr (by decide)))⟩

/-- C7, as stated, fails: `constructor` is not a template name, yet with it as the `service`
option generating URLs for the tracked `docs/intro.md` raises nothing and returns a value, the
argument of the call. -/
theorem inherited_service_returns_value :
    "constructor" ∉ generatePath.ownKeys ∧
      (getUrlGenerator rejecting (sampleEnv githubInfo) (some "git") (some "constructor") none
          none).bind (fun genUrl => genUrl "/repo/docs/intro.md") =
        Except.ok (JsValue.callArgument sampleRemote "docs/intro.md") := by
  decide

/-- C7, amended: for every non-empty `service` option that names no property of the template
table, neither one of its own (github, gitlab, bitbucket) nor one inherited from
`Object.prototype`, building the resolver succeeds once the git queries answer, and every call
for a tracked file raises a `TypeError`. -/
theorem unknown_service_raises (parser : LegacyParser) (env : Env)
    (service : String) (remote : Option String) (https : Option Bool) (raw head : String)
    (info : UrlInfo) (hne : service ≠ "") (hservice : generatePath.has service = false)
    (hraw : env.gitConfigRemoteUrl (remote.getD "origin") = Except.ok raw)
    (hparse : env.gitUrlParse (jsTrim raw) = Except.ok info)
    (hhead : env.gitSymbolicRef = Except.ok head) :
    ∃ genUrl, getUrlGenerator parser env (some "git") (some service) remote https =
        Except.ok genUrl ∧
      ∀ absPath out : String, env.gitLsTree absPath = some out → jsTrim out ≠ "" →
        genUrl absPath = Except.error JsError.typeError := by
  refine ⟨_, getUrlGenerator_explicit parser env service remote https raw head info hne hraw
    hparse hhead, ?_⟩
  intro absPath out hout htracked
  rw [genUrl_of_output parser env service _ absPath out hout, if_neg htracked,
    call_unknown parser service _ _ hservice]

/-- The amended C7 for the `service` option `sourcehut` in the sample working copy. -/
theorem unknown_service_raises_witness :
    ∃ genUrl, getUrlGenerator rejecting (sampleEnv githubInfo) (some "git") (some "sourcehut")
        none none = Except.ok genUrl ∧
      genUrl "/repo/docs/intro.md" = Except.error JsError.typeError := by
  obtain ⟨genUrl, hbuild, hcall⟩ := unknown_service_raises rejecting (sampleEnv githubInfo)
    "sourcehut" none none "git@github.com:acme/site.git\n" "main\n" githubInfo (by decide)
    (by decide) rfl rfl rfl
  exact ⟨genUrl, hbuild, hcall "/repo/docs/intro.md" "docs/intro.md\n" (by decide) (by decide)⟩

/-- C8 on the code: when git and mercurial both fail to report a root and no `vcs` option is
given, or when the `vcs` option is the unrecognized `cvs`, the plugin initializes, and then
every per-file call raises a `TypeError` (`getRepoRelFilePath` is `undefined`) instead of
returning null. -/
theorem no_vcs_resolver_raises (parser : LegacyParser) (env : Env)
    (hgError : JsError) (service remote : Option String) (https : Option Bool) :
    (∃ genUrl,
        plugin parser { env with gitRepoInfoRoot := none, hgRoot := Except.error hgError }
          (Options.mk none service remote https) = Except.ok genUrl ∧
        ∀ absPath : String, genUrl absPath = Except.error JsError.typeError) ∧
      (∃ genUrl, plugin parser env (Options.mk (some "cvs") service remote https) =
          Except.ok genUrl ∧
        ∀ absPath : String, genUrl absPath = Except.error JsError.typeError) := by
  constructor
  · refine ⟨fun _ => Except.error JsError.typeError, ?_, fun _ => rfl⟩
    simp [plugin, locate, probeAll, supportedVcs, truthy, getUrlGenerator]
    rfl
  · refine ⟨fun _ => Except.error JsError.typeError, ?_, fun _ => rfl⟩
    simp [plugin, locate, supportedVcs, truthy, getUrlGenerator]
    rfl

end RemoteUrl
